import Mathlib

/-!
Verification of the ASTERIX codec core (BitStream.hpp, Codec.cpp, Types.hpp).

The C++ source is shallowly embedded:
* bytes are `Nat` values (kept `< 256` by the stated invariants),
* `uint64_t` / `uint16_t` / `uint8_t` casts appear as `% 2 ^ 64` / `% 65536` /
  `% 256` at the places the source performs them,
* thrown `std::runtime_error` / `std::invalid_argument` / `std::out_of_range`
  exceptions are modelled with `Except String`, carrying the source's message,
* `std::map` is modelled by association lists kept strictly sorted by key
  (the canonical representation of a `std::map`'s contents),
* every loop is translated with an explicit structural fuel argument whose
  fuel-exhaustion branch is chosen to coincide with the loop behaviour under
  the invariant that makes the fuel sufficient (each such invariant is stated
  in the comment next to the definition), so all definitions compute by `rfl`
  and `decide`.
-/

namespace AsterixV

deriving instance DecidableEq for Except

-- ═════════════════════════════════════════════════════════════════════════════
--  Bit-level view helpers (specification-side abstractions)
-- ═════════════════════════════════════════════════════════════════════════════

/-- MSB-first list of the 8 low-order bits of a byte value. -/
def byteBits (b : Nat) : List Nat :=
  [b / 128 % 2, b / 64 % 2, b / 32 % 2, b / 16 % 2, b / 8 % 2, b / 4 % 2, b / 2 % 2, b % 2]

/-- MSB-first bit view of a whole byte buffer. -/
def bufBits (buf : List Nat) : List Nat := (buf.map byteBits).flatten

/-- MSB-first list of the `n` low-order bits of `v`. -/
def natBits : Nat → Nat → List Nat
  | 0, _ => []
  | k + 1, v => v / 2 ^ k % 2 :: natBits k v

/-- Value of an MSB-first bit list, folded onto an accumulator. -/
def bitsValFrom (acc : Nat) (l : List Nat) : Nat :=
  l.foldl (fun a b => 2 * a + b) acc

/-- Value of an MSB-first bit list. -/
def bitsVal (l : List Nat) : Nat := bitsValFrom 0 l

/-- Group an (8-divisible) MSB-first bit list back into byte values. -/
def bitsToBytes : List Nat → List Nat
  | b7 :: b6 :: b5 :: b4 :: b3 :: b2 :: b1 :: b0 :: rest =>
      bitsVal [b7, b6, b5, b4, b3, b2, b1, b0] :: bitsToBytes rest
  | _ => []

-- ═════════════════════════════════════════════════════════════════════════════
--  BitStream.hpp — BitReader / BitWriter
-- ═════════════════════════════════════════════════════════════════════════════

/-- The chunked loop of `BitReader::readU` (BitStream.hpp, lines 50-71).
Each iteration consumes `chunk = min left (8 - pos % 8) ≥ 1` bits, so the loop
runs at most `left` times; with `fuel = left` at the top-level call the fuel-0
branch is reached only with `left = 0` and returns `acc`, exactly like the
loop exit. -/
def readChunksF : Nat → List Nat → Nat → Nat → Nat → Nat
  | 0, _, _, _, acc => acc
  | fuel + 1, buf, pos, left, acc =>
    if left = 0 then acc
    else
      let bib := pos % 8
      let avail := 8 - bib
      let chunk := min left avail
      let shift := avail - chunk
      let mask := ((1 <<< chunk) - 1) <<< shift
      let bits := (buf.getD (pos / 8) 0 &&& mask) >>> shift
      readChunksF fuel buf (pos + chunk) (left - chunk) ((acc <<< chunk) ||| bits)

/-- `BitReader` (BitStream.hpp): a read-only byte span plus a bit position. -/
structure BitReader where
  buf : List Nat
  pos : Nat
deriving Repr, DecidableEq

def BitReader.bitsAvailable (r : BitReader) : Nat := r.buf.length * 8 - r.pos

/-- `BitReader::boundsCheck` (BitStream.hpp, lines 138-143). -/
def BitReader.boundsCheck (r : BitReader) (n : Nat) : Except String Unit :=
  if n = 0 ∨ 64 < n then .error "BitReader: bit count must be 1-64"
  else if r.bitsAvailable < n then .error "BitReader: read past end of buffer"
  else .ok ()

/-- `BitReader::readU` (BitStream.hpp, lines 50-71): value plus advanced reader. -/
def BitReader.readU (r : BitReader) (n : Nat) : Except String (Nat × BitReader) :=
  match r.boundsCheck n with
  | .error e => .error e
  | .ok _ => .ok (readChunksF n r.buf r.pos n 0, ⟨r.buf, r.pos + n⟩)

/-- `BitReader::skip` (BitStream.hpp, lines 94-97). -/
def BitReader.skip (r : BitReader) (n : Nat) : Except String BitReader :=
  match r.boundsCheck n with
  | .error e => .error e
  | .ok _ => .ok ⟨r.buf, r.pos + n⟩

/-- `BitReader::readBit` (BitStream.hpp, line 84). -/
def BitReader.readBit (r : BitReader) : Except String (Bool × BitReader) :=
  match r.readU 1 with
  | .error e => .error e
  | .ok (v, r') => .ok (v ≠ 0, r')

/-- The chunked loop of `BitWriter::writeU` (BitStream.hpp, lines 161-187).
Same fuel discipline as `readChunksF`: `chunk ≥ 1` per iteration, so
`fuel = left` makes the fuel-0 branch coincide with the loop exit. -/
def writeChunksF : Nat → List Nat → Nat → Nat → Nat → List Nat × Nat
  | 0, buf, pos, _, _ => (buf, pos)
  | fuel + 1, buf, pos, value, left =>
    if left = 0 then (buf, pos)
    else
      let buf1 := if buf = [] ∨ pos % 8 = 0 then buf ++ [0] else buf
      let bib := pos % 8
      let avail := 8 - bib
      let chunk := min left avail
      let bits := (value >>> (left - chunk)) &&& ((1 <<< chunk) - 1)
      let buf2 := buf1.dropLast ++ [buf1.getLastD 0 ||| (bits <<< (avail - chunk))]
      writeChunksF fuel buf2 (pos + chunk) value (left - chunk)

/-- `BitWriter` (BitStream.hpp): growable byte buffer plus a bit position. -/
structure BitWriter where
  buf : List Nat
  pos : Nat
deriving Repr, DecidableEq

/-- `BitWriter::writeU` (BitStream.hpp, lines 161-187).  The argument is a
`uint64_t`, so its content is `value % 2 ^ 64`; for `n < 64` the source then
masks it to the low `n` bits. -/
def BitWriter.writeU (w : BitWriter) (value n : Nat) : Except String BitWriter :=
  if n = 0 ∨ 64 < n then .error "BitWriter: bit count must be 1-64"
  else
    let v := if n < 64 then (value % 2 ^ 64) &&& ((1 <<< n) - 1) else value % 2 ^ 64
    let r := writeChunksF n w.buf w.pos v n
    .ok ⟨r.1, r.2⟩

/-- `BitWriter::writeBit` (BitStream.hpp, line 195). -/
def BitWriter.writeBit (w : BitWriter) (b : Bool) : Except String BitWriter :=
  w.writeU (if b then 1 else 0) 1

/-- `BitWriter::writeByte` (BitStream.hpp, line 203). -/
def BitWriter.writeByte (w : BitWriter) (b : Nat) : Except String BitWriter :=
  w.writeU b 8

/-- `BitWriter::writeBytes` (BitStream.hpp, lines 198-200): one `writeU(b, 8)`
per byte. -/
def BitWriter.writeBytes (w : BitWriter) (data : List Nat) : Except String BitWriter :=
  match data with
  | [] => .ok w
  | b :: t =>
    match w.writeByte b with
    | .error e => .error e
    | .ok w' => w'.writeBytes t

def BitWriter.bitsWritten (w : BitWriter) : Nat := w.pos

/-- `BitWriter::take` (BitStream.hpp, line 206): the finished byte buffer. -/
def BitWriter.take (w : BitWriter) : List Nat := w.buf

/-- The empty `BitWriter` (default construction). -/
def BitWriter.empty : BitWriter := ⟨[], 0⟩

/-- Invariant of every reachable `BitWriter` state: bytes are byte-valued, the
buffer holds exactly the bytes touched so far, and every bit at or past the
write cursor is still zero. -/
def WFW (buf : List Nat) (pos : Nat) : Prop :=
  (∀ b ∈ buf, b < 256) ∧ buf.length = (pos + 7) / 8 ∧
  (bufBits buf).drop pos = List.replicate (8 * buf.length - pos) 0

instance (buf : List Nat) (pos : Nat) : Decidable (WFW buf pos) := by
  unfold WFW; infer_instance

/-- The bit content of a writer: the `pos` bits written so far, MSB-first. -/
def Wabs (w : BitWriter) : List Nat := (bufBits w.buf).take w.pos

/-- The loop body of `BitWriter::writeU` acting on the buffer: push a fresh
byte when at a byte boundary, then OR the chunk into the last byte.  (This is
the buffer update of one `writeChunksF` iteration, factored out for the
proofs.) -/
def wstep (buf : List Nat) (pos w chunk : Nat) : List Nat :=
  (if buf = [] ∨ pos % 8 = 0 then buf ++ [0] else buf).dropLast ++
    [(if buf = [] ∨ pos % 8 = 0 then buf ++ [0] else buf).getLastD 0 |||
      ((w &&& ((1 <<< chunk) - 1)) <<< (8 - pos % 8 - chunk))]

-- ═════════════════════════════════════════════════════════════════════════════
--  Types.hpp — schema model and decoded objects
-- ═════════════════════════════════════════════════════════════════════════════

/-- Lexicographic comparison of character lists by code point (the order
`std::less<std::string>` uses for the ASCII keys appearing here). -/
def strLtAux : List Char → List Char → Bool
  | [], [] => false
  | [], _ :: _ => true
  | _ :: _, [] => false
  | a :: as, b :: bs =>
    if a.toNat < b.toNat then true
    else if b.toNat < a.toNat then false
    else strLtAux as bs

def strLt (a b : String) : Bool := strLtAux a.data b.data

/-- `std::map<std::string, α>` contents: an association list kept strictly
sorted by key.  Insertion replaces an existing binding (`operator[]`
assignment). -/
abbrev Smap (α : Type) := List (String × α)

def Smap.find? {α : Type} (k : String) : Smap α → Option α
  | [] => none
  | (k', v) :: t => if k' = k then some v else Smap.find? k t

def Smap.contains {α : Type} (k : String) (m : Smap α) : Bool :=
  (Smap.find? k m).isSome

def Smap.insert {α : Type} (k : String) (v : α) : Smap α → Smap α
  | [] => [(k, v)]
  | (k', v') :: t =>
    if strLt k k' then (k, v) :: (k', v') :: t
    else if k = k' then (k, v) :: t
    else (k', v') :: Smap.insert k v t

/-- `std::map<uint64_t, α>` / `std::map<uint8_t, α>` contents, looked up by
numeric key (list order models the map's iteration order). -/
def nfind? {α : Type} (k : Nat) : List (Nat × α) → Option α
  | [] => none
  | (k', v) :: t => if k' = k then some v else nfind? k t

/-- `ItemType` (Types.hpp, lines 24-33). -/
inductive ItemType where
  | Fixed
  | Extended
  | Repetitive
  | RepetitiveGroup
  | RepetitiveGroupFX
  | Explicit
  | SP
  | Compound
deriving Repr, DecidableEq

/-- `Presence` (Types.hpp, line 36). -/
inductive Presence where
  | Mandatory
  | Conditional
  | Optional
deriving Repr, DecidableEq

/-- `ElementDef` (Types.hpp, lines 39-56).  The value-transform metadata
(`encoding`, `table`, `scale`, `unit`, range hints) is never read by the
codec being verified (Codec.cpp reads only `name`, `bits`, `is_spare`), so it
is not modelled. -/
structure ElementDef where
  name : String
  bits : Nat
  is_spare : Bool
deriving Repr, DecidableEq

/-- `OctetDef` (Types.hpp, lines 61-63). -/
structure OctetDef where
  elements : List ElementDef
deriving Repr, DecidableEq

/-- `CompoundSubItemDef` (Types.hpp, lines 68-72). -/
structure CompoundSubItemDef where
  name : String
  elements : List ElementDef
  fixed_bytes : Nat
deriving Repr, DecidableEq

/-- `DataItemDef` (Types.hpp, lines 75-99).  `rep_element` and the
human-readable `name` metadata are never read by Codec.cpp; `name` is kept,
`rep_element` is not. -/
structure DataItemDef where
  id : String
  name : String
  type : ItemType
  presence : Presence
  elements : List ElementDef
  octets : List OctetDef
  rep_group_elements : List ElementDef
  rep_group_bits : Nat
  fixed_bytes : Nat
  compound_sub_items : List CompoundSubItemDef
deriving Repr, DecidableEq

/-- `UapCase` (Types.hpp, lines 102-106). -/
structure UapCase where
  item_id : String
  field : String
  value_to_variation : List (Nat × String)
deriving Repr, DecidableEq

/-- `CategoryDef` (Types.hpp, lines 109-129); the `name`/`edition`/`date`
metadata is never read by Codec.cpp and is not modelled. -/
structure CategoryDef where
  cat : Nat
  items : Smap DataItemDef
  uap_variations : Smap (List String)
  default_variation : String
  uap_case : Option UapCase
deriving Repr, DecidableEq

/-- `DecodedItem` (Types.hpp, lines 132-152). -/
structure DecodedItem where
  item_id : String
  type : ItemType
  fields : Smap Nat
  repetitions : List Nat
  group_repetitions : List (Smap Nat)
  raw_bytes : List Nat
  compound_sub_fields : Smap (Smap Nat)
deriving Repr, DecidableEq

/-- A default-constructed `DecodedItem` with `item_id` and `type` set, as at
the top of `Codec::decodeItem` (Codec.cpp, lines 102-104). -/
def DecodedItem.init (id : String) (ty : ItemType) : DecodedItem :=
  ⟨id, ty, [], [], [], [], []⟩

/-- `DecodedRecord` (Types.hpp, lines 155-160). -/
structure DecodedRecord where
  items : Smap DecodedItem
  uap_variation : String
  valid : Bool
  error : String
deriving Repr, DecidableEq

def DecodedRecord.init : DecodedRecord := ⟨[], "", true, ""⟩

/-- `DecodedBlock` (Types.hpp, lines 163-169). -/
structure DecodedBlock where
  cat : Nat
  length : Nat
  records : List DecodedRecord
  valid : Bool
  error : String
deriving Repr, DecidableEq

def DecodedBlock.init : DecodedBlock := ⟨0, 0, [], true, ""⟩

-- ═════════════════════════════════════════════════════════════════════════════
--  Codec.cpp — item-level decode
-- ═════════════════════════════════════════════════════════════════════════════

/-- The element loop shared by `decodeFixedElements` (Codec.cpp, lines 76-87)
and the identical inline loops for repetitive groups (173-176, 196-199) and
compound sub-items (252-255): spare elements are skipped, others are read and
stored by name. -/
def decodeElemsR (elems : List ElementDef) (br : BitReader) (fields : Smap Nat) :
    Except String (Smap Nat × BitReader) :=
  match elems with
  | [] => .ok (fields, br)
  | e :: t =>
    if e.is_spare then
      match br.skip e.bits with
      | .error msg => .error msg
      | .ok br' => decodeElemsR t br' fields
    else
      match br.readU e.bits with
      | .error msg => .error msg
      | .ok (raw, br') => decodeElemsR t br' (Smap.insert e.name raw fields)

/-- `decodeOctetElements` (Codec.cpp, lines 90-97): decode one Extended
octet's elements, then consume the FX bit. -/
def decodeOctetElems (oct : OctetDef) (br : BitReader) (fields : Smap Nat) :
    Except String (Smap Nat × BitReader) :=
  match decodeElemsR oct.elements br fields with
  | .error msg => .error msg
  | .ok (fields', br') =>
    match br'.skip 1 with
    | .error msg => .error msg
    | .ok br'' => .ok (fields', br'')

/-- The Extended decode loop (Codec.cpp, lines 119-141).  `offset` grows by 1
per iteration under the guard `offset < item_buf.length`, so
`fuel = item_buf.length` suffices; the fuel-0 branch repeats the
out-of-buffer error the guard would raise. -/
def decodeExtendedLoop (d : DataItemDef) (item_buf : List Nat) :
    Nat → Nat → Nat → Smap Nat → Except String (Smap Nat × Nat)
  | 0, _, _, _ => .error ("Item " ++ d.id ++ ": unexpected end of buffer in Extended")
  | fuel + 1, offset, oct_idx, fields =>
    if item_buf.length ≤ offset then
      .error ("Item " ++ d.id ++ ": unexpected end of buffer in Extended")
    else
      let raw_byte := item_buf.getD offset 0
      let fx := (raw_byte &&& 1) != 0
      if oct_idx < d.octets.length then
        match decodeOctetElems (d.octets.getD oct_idx ⟨[]⟩) ⟨[raw_byte], 0⟩ fields with
        | .error msg => .error msg
        | .ok (fields', _) =>
          if fx then decodeExtendedLoop d item_buf fuel (offset + 1) (oct_idx + 1) fields'
          else .ok (fields', offset + 1)
      else
        if fx then decodeExtendedLoop d item_buf fuel (offset + 1) (oct_idx + 1) fields
        else .ok (fields, offset + 1)

/-- The Repetitive (FX) decode loop (Codec.cpp, lines 144-157).  Same fuel
discipline as `decodeExtendedLoop`. -/
def decodeRepetitiveLoop (d : DataItemDef) (item_buf : List Nat) :
    Nat → Nat → List Nat → Except String (List Nat × Nat)
  | 0, _, _ => .error ("Item " ++ d.id ++ ": buffer too short in Repetitive")
  | fuel + 1, offset, reps =>
    if item_buf.length ≤ offset then
      .error ("Item " ++ d.id ++ ": buffer too short in Repetitive")
    else
      let raw_byte := item_buf.getD offset 0
      let fx := (raw_byte &&& 1) != 0
      let val := (raw_byte >>> 1) &&& 127
      if fx then decodeRepetitiveLoop d item_buf fuel (offset + 1) (reps ++ [val])
      else .ok (reps ++ [val], offset + 1)

/-- The RepetitiveGroup per-group decode loop (Codec.cpp, lines 169-179),
structural on the count read from the 1-byte prefix. -/
def decodeRepGroupLoop (d : DataItemDef) (item_buf : List Nat) (group_bytes : Nat) :
    Nat → Nat → List (Smap Nat) → Except String (List (Smap Nat) × Nat)
  | 0, offset, grps => .ok (grps, offset)
  | i + 1, offset, grps =>
    match decodeElemsR d.rep_group_elements ⟨(item_buf.drop offset).take group_bytes, 0⟩ [] with
    | .error msg => .error msg
    | .ok (grp, _) =>
      decodeRepGroupLoop d item_buf group_bytes i (offset + group_bytes) (grps ++ [grp])

/-- The RepetitiveGroupFX decode loop (Codec.cpp, lines 187-207).  When
`group_bytes ≥ 1` every iteration advances `offset` by `group_bytes`, so
`fuel = item_buf.length + 1` suffices and the fuel-0 branch coincides with
the truncation error of the guard; when `group_bytes = 0` the element/FX
reads fail inside the first iteration (an empty bit window), so the loop
never recurses. -/
def decodeRepGroupFxLoop (d : DataItemDef) (item_buf : List Nat) (group_bytes : Nat) :
    Nat → Nat → List (Smap Nat) → Except String (List (Smap Nat) × Nat)
  | 0, _, _ => .error ("Item " ++ d.id ++ ": buffer too short in RepetitiveGroupFX")
  | fuel + 1, offset, grps =>
    if item_buf.length < offset + group_bytes then
      .error ("Item " ++ d.id ++ ": buffer too short in RepetitiveGroupFX")
    else
      match decodeElemsR d.rep_group_elements ⟨(item_buf.drop offset).take group_bytes, 0⟩ [] with
      | .error msg => .error msg
      | .ok (grp, br) =>
        match br.readBit with
        | .error msg => .error msg
        | .ok (fx, _) =>
          if fx then
            decodeRepGroupFxLoop d item_buf group_bytes fuel (offset + group_bytes) (grps ++ [grp])
          else .ok (grps ++ [grp], offset + group_bytes)

/-- The Compound PSF read loop (Codec.cpp, lines 229-236).  Same fuel
discipline as `decodeRepetitiveLoop`. -/
def decodePsfLoop (d : DataItemDef) (item_buf : List Nat) :
    Nat → Nat → List Nat → Except String (List Nat × Nat)
  | 0, _, _ => .error ("Item " ++ d.id ++ ": truncated Compound PSF")
  | fuel + 1, offset, psf =>
    if item_buf.length ≤ offset then
      .error ("Item " ++ d.id ++ ": truncated Compound PSF")
    else
      let b := item_buf.getD offset 0
      if (b &&& 1) != 0 then decodePsfLoop d item_buf fuel (offset + 1) (psf ++ [b])
      else .ok (psf ++ [b], offset + 1)

/-- The Compound sub-item decode loop (Codec.cpp, lines 238-259), structural
over the sub-item list with the running PSF slot index. -/
def decodeCompoundSubs (d : DataItemDef) (item_buf : List Nat) (psf : List Nat) :
    List CompoundSubItemDef → Nat → Nat → Smap (Smap Nat) →
    Except String (Smap (Smap Nat) × Nat)
  | [], _, offset, acc => .ok (acc, offset)
  | si :: rest, slot, offset, acc =>
    let psf_byte := slot / 7
    let psf_bit := 7 - slot % 7
    let present := decide (psf_byte < psf.length) &&
      (((psf.getD psf_byte 0) >>> psf_bit) &&& 1) != 0
    if present = false ∨ si.name = "-" then
      decodeCompoundSubs d item_buf psf rest (slot + 1) offset acc
    else if item_buf.length < offset + si.fixed_bytes then
      .error ("Item " ++ d.id ++ "/" ++ si.name ++ ": buffer too short for Compound sub-item")
    else
      match decodeElemsR si.elements ⟨(item_buf.drop offset).take si.fixed_bytes, 0⟩ [] with
      | .error msg => .error msg
      | .ok (sub_fields, _) =>
        decodeCompoundSubs d item_buf psf rest (slot + 1) (offset + si.fixed_bytes)
          (Smap.insert si.name sub_fields acc)

/-- `Codec::decodeItem` (Codec.cpp, lines 99-268): decoded value plus the
number of bytes consumed.  Thrown exceptions are `Except.error` with the
source's message.  `ItemType::Explicit` reaches the `default:` branch of the
source's switch (the XML loader maps Explicit/SP/RE blocks to
`ItemType::SP`). -/
def decodeItem (d : DataItemDef) (item_buf : List Nat) :
    Except String (DecodedItem × Nat) :=
  let out := DecodedItem.init d.id d.type
  match d.type with
  | ItemType.Fixed =>
    if item_buf.length < d.fixed_bytes then
      .error ("Item " ++ d.id ++ ": buffer too short for Fixed")
    else
      match decodeElemsR d.elements ⟨item_buf.take d.fixed_bytes, 0⟩ [] with
      | .error msg => .error msg
      | .ok (fields, _) => .ok ({ out with fields := fields }, d.fixed_bytes)
  | ItemType.Extended =>
    match decodeExtendedLoop d item_buf item_buf.length 0 0 [] with
    | .error msg => .error msg
    | .ok (fields, consumed) => .ok ({ out with fields := fields }, consumed)
  | ItemType.Repetitive =>
    match decodeRepetitiveLoop d item_buf item_buf.length 0 [] with
    | .error msg => .error msg
    | .ok (reps, consumed) => .ok ({ out with repetitions := reps }, consumed)
  | ItemType.RepetitiveGroup =>
    if item_buf.length = 0 then
      .error ("Item " ++ d.id ++ ": buffer too short for RepetitiveGroup")
    else
      let rep_count := item_buf.getD 0 0
      let group_bytes := d.rep_group_bits / 8
      let total_need := 1 + rep_count * group_bytes
      if item_buf.length < total_need then
        .error ("Item " ++ d.id ++ ": buffer too short for RepetitiveGroup data")
      else
        match decodeRepGroupLoop d item_buf group_bytes rep_count 1 [] with
        | .error msg => .error msg
        | .ok (grps, _) => .ok ({ out with group_repetitions := grps }, total_need)
  | ItemType.RepetitiveGroupFX =>
    let group_bytes := (d.rep_group_bits + 1) / 8
    match decodeRepGroupFxLoop d item_buf group_bytes (item_buf.length + 1) 0 [] with
    | .error msg => .error msg
    | .ok (grps, consumed) => .ok ({ out with group_repetitions := grps }, consumed)
  | ItemType.SP =>
    if item_buf.length = 0 then
      .error ("Item " ++ d.id ++ ": empty buffer for Explicit")
    else
      let len := item_buf.getD 0 0
      if len < 1 ∨ item_buf.length < len then
        .error ("Item " ++ d.id ++ ": Explicit length out of range")
      else
        .ok ({ out with raw_bytes := (item_buf.drop 1).take (len - 1) }, len)
  | ItemType.Compound =>
    match decodePsfLoop d item_buf item_buf.length 0 [] with
    | .error msg => .error msg
    | .ok (psf, offset) =>
      match decodeCompoundSubs d item_buf psf d.compound_sub_items 0 offset [] with
      | .error msg => .error msg
      | .ok (subs, consumed) => .ok ({ out with compound_sub_fields := subs }, consumed)
  | ItemType.Explicit => .error ("Item " ++ d.id ++ ": unsupported item type")

-- ═════════════════════════════════════════════════════════════════════════════
--  Codec.cpp — item-level encode
-- ═════════════════════════════════════════════════════════════════════════════

/-- `encodeFixedElements` (Codec.cpp, lines 436-449) and the identical inline
element loops of the other encoders: spare elements emit zero bits, others
emit the looked-up value (absent name emits zero). -/
def encodeElemsW (elems : List ElementDef) (src : Smap Nat) (bw : BitWriter) :
    Except String BitWriter :=
  match elems with
  | [] => .ok bw
  | e :: t =>
    if e.is_spare then
      match bw.writeU 0 e.bits with
      | .error msg => .error msg
      | .ok bw' => encodeElemsW t src bw'
    else
      match bw.writeU ((Smap.find? e.name src).getD 0) e.bits with
      | .error msg => .error msg
      | .ok bw' => encodeElemsW t src bw'

/-- One octet of the Extended encoder (Codec.cpp, lines 477-488): element
bits, then the FX bit. -/
def encodeOctet (oct : OctetDef) (fields : Smap Nat) (is_last : Bool) (bw : BitWriter) :
    Except String BitWriter :=
  match encodeElemsW oct.elements fields bw with
  | .error msg => .error msg
  | .ok bw' => bw'.writeBit (!is_last)

/-- Does octet `oct` carry a non-zero non-spare value in `fields`?
(Codec.cpp, lines 466-474.) -/
def octetHasNonzero (oct : OctetDef) (fields : Smap Nat) : Bool :=
  oct.elements.any (fun e => !e.is_spare && ((Smap.find? e.name fields).getD 0 != 0))

/-- The forward `latest index satisfying P, plus one` fold shared by the
`last_useful` (Codec.cpp, lines 464-475) and `last_fspec` (lines 632-637)
computations. -/
def luFold (P : Nat → Bool) (n : Nat) : Nat :=
  (List.range n).foldl (fun acc i => if P i then i + 1 else acc) 0

/-- `last_useful` of the Extended encoder (Codec.cpp, lines 464-475). -/
def lastUseful (d : DataItemDef) (val : DecodedItem) : Nat :=
  let l := luFold (fun i => octetHasNonzero (d.octets.getD i ⟨[]⟩) val.fields) d.octets.length
  if l = 0 then 1 else l

/-- The Extended encode loop over octet indices (Codec.cpp, lines 477-488). -/
def encodeExtendedOctets (d : DataItemDef) (fields : Smap Nat) (last_useful : Nat) :
    List Nat → BitWriter → Except String BitWriter
  | [], bw => .ok bw
  | i :: rest, bw =>
    match encodeOctet (d.octets.getD i ⟨[]⟩) fields (i + 1 == last_useful) bw with
    | .error msg => .error msg
    | .ok bw' => encodeExtendedOctets d fields last_useful rest bw'

/-- The Repetitive encode loop (Codec.cpp, lines 493-498): 7 data bits then
FX per entry (`is_last` iff no entries remain). -/
def encodeReps : List Nat → BitWriter → Except String BitWriter
  | [], bw => .ok bw
  | r :: rest, bw =>
    match bw.writeU (r &&& 127) 7 with
    | .error msg => .error msg
    | .ok bw' =>
      match bw'.writeBit (!rest.isEmpty) with
      | .error msg => .error msg
      | .ok bw'' => encodeReps rest bw''

/-- The RepetitiveGroup encode loop (Codec.cpp, lines 509-517). -/
def encodeRepGroups (elems : List ElementDef) : List (Smap Nat) → BitWriter →
    Except String BitWriter
  | [], bw => .ok bw
  | grp :: rest, bw =>
    match encodeElemsW elems grp bw with
    | .error msg => .error msg
    | .ok bw' => encodeRepGroups elems rest bw'

/-- The RepetitiveGroupFX encode loop (Codec.cpp, lines 530-542). -/
def encodeRepGroupsFx (elems : List ElementDef) : List (Smap Nat) → BitWriter →
    Except String BitWriter
  | [], bw => .ok bw
  | grp :: rest, bw =>
    match encodeElemsW elems grp bw with
    | .error msg => .error msg
    | .ok bw' =>
      match bw'.writeBit (!rest.isEmpty) with
      | .error msg => .error msg
      | .ok bw'' => encodeRepGroupsFx elems rest bw''

/-- `last_slot` of the Compound encoder (Codec.cpp, lines 557-562): the
highest slot index holding a present sub-item, if any. -/
def lastSlot (subs : List CompoundSubItemDef) (m : Smap (Smap Nat)) : Option Nat :=
  (List.range subs.length).foldl (fun acc i =>
    let si := subs.getD i ⟨"", [], 0⟩
    if si.name ≠ "-" ∧ Smap.contains si.name m then some i else acc) none

/-- Value of PSF byte `pb` before the FX bit (Codec.cpp, lines 568-574). -/
def psfByteVal (subs : List CompoundSubItemDef) (m : Smap (Smap Nat)) (pb : Nat) : Nat :=
  (List.range subs.length).foldl (fun acc i =>
    let si := subs.getD i ⟨"", [], 0⟩
    if si.name ≠ "-" ∧ Smap.contains si.name m ∧ i / 7 = pb
    then acc ||| (1 <<< (7 - i % 7)) else acc) 0

/-- The PSF byte vector of the Compound encoder (Codec.cpp, lines 564-577):
`last_psf_byte + 1` bytes, slot bits set, FX set on all but the last. -/
def psfBytes (subs : List CompoundSubItemDef) (m : Smap (Smap Nat)) : List Nat :=
  let last_psf_byte := match lastSlot subs m with
    | some s => s / 7
    | none => 0
  (List.range (last_psf_byte + 1)).map (fun pb =>
    if pb < last_psf_byte then psfByteVal subs m pb ||| 1 else psfByteVal subs m pb)

/-- The Compound sub-item payload loop (Codec.cpp, lines 581-594). -/
def encodeCompoundSubs (m : Smap (Smap Nat)) : List CompoundSubItemDef → BitWriter →
    Except String BitWriter
  | [], bw => .ok bw
  | si :: rest, bw =>
    if si.name = "-" then encodeCompoundSubs m rest bw
    else
      match Smap.find? si.name m with
      | none => encodeCompoundSubs m rest bw
      | some sub_fields =>
        match encodeElemsW si.elements sub_fields bw with
        | .error msg => .error msg
        | .ok bw' => encodeCompoundSubs m rest bw'

/-- `Codec::encodeItem` (Codec.cpp, lines 451-603).  The `uint8_t` casts of
the RepetitiveGroup count and the SP length byte appear as `% 256`. -/
def encodeItem (d : DataItemDef) (val : DecodedItem) : Except String (List Nat) :=
  let bw := BitWriter.empty
  match d.type with
  | ItemType.Fixed =>
    match encodeElemsW d.elements val.fields bw with
    | .error msg => .error msg
    | .ok bw' => .ok bw'.take
  | ItemType.Extended =>
    match encodeExtendedOctets d val.fields (lastUseful d val)
        (List.range (lastUseful d val)) bw with
    | .error msg => .error msg
    | .ok bw' => .ok bw'.take
  | ItemType.Repetitive =>
    if val.repetitions.isEmpty then
      match bw.writeU 0 7 with
      | .error msg => .error msg
      | .ok bw' =>
        match bw'.writeBit false with
        | .error msg => .error msg
        | .ok bw'' => .ok bw''.take
    else
      match encodeReps val.repetitions bw with
      | .error msg => .error msg
      | .ok bw' => .ok bw'.take
  | ItemType.RepetitiveGroup =>
    match bw.writeByte (val.group_repetitions.length % 256) with
    | .error msg => .error msg
    | .ok bw' =>
      match encodeRepGroups d.rep_group_elements val.group_repetitions bw' with
      | .error msg => .error msg
      | .ok bw'' => .ok bw''.take
  | ItemType.RepetitiveGroupFX =>
    if val.group_repetitions.isEmpty then
      match encodeElemsW d.rep_group_elements [] bw with
      | .error msg => .error msg
      | .ok bw' =>
        match bw'.writeBit false with
        | .error msg => .error msg
        | .ok bw'' => .ok bw''.take
    else
      match encodeRepGroupsFx d.rep_group_elements val.group_repetitions bw with
      | .error msg => .error msg
      | .ok bw' => .ok bw'.take
  | ItemType.SP =>
    match bw.writeByte ((val.raw_bytes.length + 1) % 256) with
    | .error msg => .error msg
    | .ok bw' =>
      match bw'.writeBytes val.raw_bytes with
      | .error msg => .error msg
      | .ok bw'' => .ok bw''.take
  | ItemType.Compound =>
    match bw.writeBytes (psfBytes d.compound_sub_items val.compound_sub_fields) with
    | .error msg => .error msg
    | .ok bw' =>
      match encodeCompoundSubs val.compound_sub_fields d.compound_sub_items bw' with
      | .error msg => .error msg
      | .ok bw'' => .ok bw''.take
  | ItemType.Explicit => .error ("encodeItem: unsupported item type for " ++ d.id)

-- ═════════════════════════════════════════════════════════════════════════════
--  Codec.cpp — record and block codecs
-- ═════════════════════════════════════════════════════════════════════════════

/-- The category registry `cats_` of `Codec` (a `std::map<uint8_t,
CategoryDef>`), as a numeric association list. -/
abbrev CodecReg := List (Nat × CategoryDef)

/-- `Codec::resolveVariation` (Codec.cpp, lines 39-58). -/
def resolveVariation (cat : CategoryDef) (part : DecodedRecord) : String :=
  match cat.uap_case with
  | none => cat.default_variation
  | some uc =>
    match Smap.find? uc.item_id part.items with
    | none => cat.default_variation
    | some rec_item =>
      match Smap.find? uc.field rec_item.fields with
      | none => cat.default_variation
      | some fval =>
        match nfind? fval uc.value_to_variation with
        | none => cat.default_variation
        | some var => var

/-- The FSPEC read loop of `Codec::decodeRecord` (Codec.cpp, lines 299-304).
`pos` grows by 1 per iteration under the guard `pos < buf.length`, so
`fuel = buf.length` suffices and the fuel-0 branch coincides with the
loop exit on buffer exhaustion (which the source accepts silently). -/
def readFspecLoop (buf : List Nat) : Nat → Nat → List Nat → List Nat × Nat
  | 0, pos, fspec => (fspec, pos)
  | fuel + 1, pos, fspec =>
    if buf.length ≤ pos then (fspec, pos)
    else
      let b := buf.getD pos 0
      if (b &&& 1) = 0 then (fspec ++ [b], pos + 1)
      else readFspecLoop buf fuel (pos + 1) (fspec ++ [b])

/-- The `isPresent` lambda of `Codec::decodeRecord` (Codec.cpp, lines 313-319). -/
def isPresent (fspec : List Nat) (slot_1based : Nat) : Bool :=
  if slot_1based = 0 then false
  else
    let idx := (slot_1based - 1) / 7
    let bit_shift := 7 - (slot_1based - 1) % 7
    if fspec.length ≤ idx then false
    else ((fspec.getD idx 0 >>> bit_shift) &&& 1) != 0

/-- The longest UAP variation of a category: every UAP the slot loop can
point at is a value of `uap_variations`, so `maxUapLen cat + 1` iterations
bound the loop `for slot = 1; slot <= uap->size()` even across variation
switches. -/
def maxUapLen (cat : CategoryDef) : Nat :=
  cat.uap_variations.foldl (fun acc p => max acc p.2.length) 0

/-- The UAP slot loop of `Codec::decodeRecord` (Codec.cpp, lines 331-359),
including the mid-loop variation switch.  Fuel as in `maxUapLen`; the fuel-0
branch coincides with the loop exit `slot > uap.length`. -/
def decodeSlotsLoop (cat : CategoryDef) (buf : List Nat) (fspec : List Nat) :
    Nat → Nat → List String → DecodedRecord → Nat →
    Except String (DecodedRecord × Nat)
  | 0, _, _, rec, pos => .ok (rec, pos)
  | fuel + 1, slot, uap, rec, pos =>
    if uap.length < slot then .ok (rec, pos)
    else
      let item_id := uap.getD (slot - 1) ""
      if item_id = "-" ∨ item_id = "rfs" then
        decodeSlotsLoop cat buf fspec fuel (slot + 1) uap rec pos
      else if isPresent fspec slot = false then
        decodeSlotsLoop cat buf fspec fuel (slot + 1) uap rec pos
      else
        match Smap.find? item_id cat.items with
        | none => .error ("FSPEC references unknown item: " ++ item_id)
        | some ddef =>
          match decodeItem ddef (buf.drop pos) with
          | .error msg => .error msg
          | .ok (di, item_consumed) =>
            let rec' := { rec with items := Smap.insert item_id di rec.items }
            match cat.uap_case with
            | some uc =>
              if item_id = uc.item_id then
                let var := resolveVariation cat rec'
                match Smap.find? var cat.uap_variations with
                | some uap' =>
                  decodeSlotsLoop cat buf fspec fuel (slot + 1) uap'
                    { rec' with uap_variation := var } (pos + item_consumed)
                | none =>
                  decodeSlotsLoop cat buf fspec fuel (slot + 1) uap rec' (pos + item_consumed)
              else decodeSlotsLoop cat buf fspec fuel (slot + 1) uap rec' (pos + item_consumed)
            | none => decodeSlotsLoop cat buf fspec fuel (slot + 1) uap rec' (pos + item_consumed)

/-- The mandatory-item validation of `Codec::decodeRecord` (Codec.cpp,
lines 365-371), folded over the category item map in iteration order. -/
def mandatoryCheck (items : Smap DataItemDef) (rec : DecodedRecord) : DecodedRecord :=
  items.foldl (fun r p =>
    if p.2.presence = Presence.Mandatory ∧ (Smap.find? p.1 r.items).isNone
    then { r with
           valid := false,
           error := "Mandatory item " ++ p.1 ++ " not present" }
    else r) rec

/-- `Codec::decodeRecord` (Codec.cpp, lines 285-375): the record plus the
bytes consumed.  `cat.uap_variations.at(default)` throwing
`std::out_of_range` is the `.error` on a missing default variation. -/
def decodeRecord (cat : CategoryDef) (buf : List Nat) :
    Except String (DecodedRecord × Nat) :=
  if buf.length = 0 then
    .ok ({ DecodedRecord.init with
           valid := false,
           error := "decodeRecord called on empty buffer" }, 0)
  else
    let fp := readFspecLoop buf buf.length 0 []
    if fp.1.isEmpty then .error "Record has empty FSPEC"
    else
      match Smap.find? cat.default_variation cat.uap_variations with
      | none => .error "map::at: key not found"
      | some uap0 =>
        match decodeSlotsLoop cat buf fp.1 (maxUapLen cat + 1) 1 uap0
            DecodedRecord.init fp.2 with
        | .error msg => .error msg
        | .ok (rec, pos') =>
          let rec1 := if rec.uap_variation = ""
            then { rec with uap_variation := cat.default_variation } else rec
          .ok (mandatoryCheck cat.items rec1, pos')

/-- The record iteration of `Codec::decode` (Codec.cpp, lines 411-427).
Each recursion is guarded by `consumed ≠ 0`, so `fuel = payload.length`
suffices and the fuel-0 branch coincides with the loop exit
`pos ≥ payload.length`. -/
def decodeRecordsLoop (cat : CategoryDef) (payload : List Nat) :
    Nat → Nat → DecodedBlock → DecodedBlock
  | 0, _, block => block
  | fuel + 1, pos, block =>
    if payload.length ≤ pos then block
    else
      match decodeRecord cat (payload.drop pos) with
      | .error msg =>
        { block with
          valid := false,
          error := "Record decode error: " ++ msg }
      | .ok (rec, consumed) =>
        let block' := { block with records := block.records ++ [rec] }
        if consumed = 0 then
          { block' with
            valid := false,
            error := "Infinite loop guard: no bytes consumed decoding record" }
        else decodeRecordsLoop cat payload fuel (pos + consumed) block'

/-- `Codec::decode` (Codec.cpp, lines 381-430).  The error strings elide the
numeric interpolation of the source where irrelevant and the `uint16_t` cast
of the LEN field appears as `% 65536`. -/
def decode (c : CodecReg) (buf : List Nat) : DecodedBlock :=
  if buf.length < 3 then
    { DecodedBlock.init with
      valid := false,
      error := "Buffer too short for Data Block header (need ≥3 bytes)" }
  else
    let cat_num := buf.getD 0 0
    let len := ((buf.getD 1 0 <<< 8) ||| buf.getD 2 0) % 65536
    let block := { DecodedBlock.init with cat := cat_num, length := len }
    if len < 3 ∨ buf.length < len then
      { block with
        valid := false,
        error := "Data Block LEN field (" ++ toString len ++ ") is invalid" }
    else
      match nfind? cat_num c with
      | none =>
        { block with
          valid := false,
          error := "Category " ++ toString cat_num ++ " not registered" }
      | some cat =>
        let payload := (buf.drop 3).take (len - 3)
        decodeRecordsLoop cat payload payload.length 0 block

/-- The present-slot vector of `Codec::encodeRecord` (Codec.cpp,
lines 620-625). -/
def presentVec (uap : List String) (rec : DecodedRecord) : List Bool :=
  uap.map (fun id => if id = "-" ∨ id = "rfs" then false else Smap.contains id rec.items)

/-- `last_fspec` of `Codec::encodeRecord` (Codec.cpp, lines 629-637): the
highest FSPEC octet index containing a present slot. -/
def lastFspec (present : List Bool) : Nat :=
  (List.range ((present.length + 6) / 7)).foldl (fun acc i =>
    if (List.range 7).any (fun j => present.getD (i * 7 + j) false) then i else acc) 0

/-- One FSPEC byte before its FX bit (Codec.cpp, lines 641-645). -/
def fspecByte (present : List Bool) (i : Nat) : Nat :=
  (List.range 7).foldl (fun acc j =>
    let s := i * 7 + j
    if s < present.length ∧ present.getD s false
    then acc ||| (1 <<< (7 - s % 7)) else acc) 0

/-- The FSPEC bytes of `Codec::encodeRecord` (Codec.cpp, lines 639-649). -/
def fspecBytesOf (present : List Bool) : List Nat :=
  let lf := lastFspec present
  (List.range (lf + 1)).map (fun i =>
    if i = lf then fspecByte present i else fspecByte present i ||| 1)

/-- The item emission loop of `Codec::encodeRecord` (Codec.cpp,
lines 652-664). -/
def encodeRecItems (cat : CategoryDef) (rec : DecodedRecord) :
    List String → List Nat → Except String (List Nat)
  | [], payload => .ok payload
  | id :: rest, payload =>
    if id = "-" ∨ id = "rfs" then encodeRecItems cat rec rest payload
    else
      match Smap.find? id rec.items with
      | none => encodeRecItems cat rec rest payload
      | some di =>
        match Smap.find? id cat.items with
        | none => .error ("encodeRecord: item def not found for " ++ id)
        | some ddef =>
          match encodeItem ddef di with
          | .error msg => .error msg
          | .ok item_bytes => encodeRecItems cat rec rest (payload ++ item_bytes)

/-- `Codec::encodeRecord` (Codec.cpp, lines 609-671): FSPEC bytes followed by
the item payloads in UAP order.  (The quotes around the variation name in the
source's error message are elided.) -/
def encodeRecord (rec : DecodedRecord) (cat : CategoryDef) : Except String (List Nat) :=
  let var := if rec.uap_variation = "" then cat.default_variation else rec.uap_variation
  match Smap.find? var cat.uap_variations with
  | none => .error ("encodeRecord: unknown UAP variation " ++ var)
  | some uap =>
    match encodeRecItems cat rec uap [] with
    | .error msg => .error msg
    | .ok payload => .ok (fspecBytesOf (presentVec uap rec) ++ payload)

/-- The record loop of `Codec::encode` (Codec.cpp, lines 685-689). -/
def encodeRecordsAll (cat : CategoryDef) : List DecodedRecord → List Nat →
    Except String (List Nat)
  | [], acc => .ok acc
  | r :: rest, acc =>
    match encodeRecord r cat with
    | .error msg => .error msg
    | .ok rb => encodeRecordsAll cat rest (acc ++ rb)

/-- `Codec::encode` (Codec.cpp, lines 677-701).  The `uint16_t` cast of
`3 + records_bytes.size()` appears as `% 65536` and the `uint8_t` cast of
its high byte as `% 256`. -/
def encode (c : CodecReg) (cat_num : Nat) (records : List DecodedRecord) :
    Except String (List Nat) :=
  match nfind? cat_num c with
  | none => .error ("encode: Category " ++ toString cat_num ++ " not registered")
  | some cat =>
    match encodeRecordsAll cat records [] with
    | .error msg => .error msg
    | .ok records_bytes =>
      let total_len := (3 + records_bytes.length) % 65536
      .ok (cat_num :: (total_len >>> 8) % 256 :: (total_len &&& 255) :: records_bytes)

-- ═════════════════════════════════════════════════════════════════════════════
--  Specification-side abbreviations and concrete fixtures for the claims
-- ═════════════════════════════════════════════════════════════════════════════

/-- The value the element encoder emits for `e` (Codec.cpp, lines 439-447):
zero for spares, else the named field with default zero. -/
def elemVal (src : Smap Nat) (e : ElementDef) : Nat :=
  if e.is_spare then 0 else (Smap.find? e.name src).getD 0

/-- The bit stream an element list encodes to. -/
def elemBits (elems : List ElementDef) (src : Smap Nat) : List Nat :=
  (elems.map (fun e => natBits e.bits (elemVal src e))).flatten

/-- Total bit width of an element list. -/
def sumBits (elems : List ElementDef) : Nat := (elems.map ElementDef.bits).sum

/-- Schema invariant of one Extended octet (spec §3): element widths are
positive and sum to exactly 7. -/
def octetWF (oct : OctetDef) : Prop :=
  (∀ e ∈ oct.elements, 1 ≤ e.bits) ∧ sumBits oct.elements = 7

instance (oct : OctetDef) : Decidable (octetWF oct) := by
  unfold octetWF; infer_instance

/-- A Special Purpose (SP/Explicit/RE) item definition. -/
def spDef : DataItemDef := ⟨"SP", "", ItemType.SP, Presence.Optional, [], [], [], 0, 0, []⟩

/-- A Repetitive (FX) item definition. -/
def repDef : DataItemDef := ⟨"050", "", ItemType.Repetitive, Presence.Optional, [], [], [], 0, 0, []⟩

/-- An Extended item definition with two one-element octets. -/
def extDef : DataItemDef := ⟨"020", "", ItemType.Extended, Presence.Optional, [],
  [⟨[⟨"A", 7, false⟩]⟩, ⟨[⟨"B", 7, false⟩]⟩], [], 0, 0, []⟩

/-- A two-byte Fixed item definition. -/
def fixDef : DataItemDef := ⟨"010", "", ItemType.Fixed, Presence.Optional,
  [⟨"SAC", 8, false⟩, ⟨"SIC", 8, false⟩], [], [], 0, 2, []⟩

/-- A category with no items and an empty default UAP (used to exercise the
FSPEC reader in isolation). -/
def emptyCat : CategoryDef := ⟨1, [], [("default", [])], "default", none⟩

/-- A one-item category (data item 010 in slot 1). -/
def cat2 : CategoryDef := ⟨2, [("010", fixDef)], [("default", ["010"])], "default", none⟩

/-- A record with no items. -/
def emptyRec : DecodedRecord := DecodedRecord.init

end AsterixV

-- ════ THEOREMS ════

namespace AsterixV

/-- Bits are bits. -/
theorem byteBits_length (b : Nat) : (byteBits b).length = 8 := rfl

theorem bufBits_nil : bufBits [] = [] := rfl

theorem bufBits_cons (b : Nat) (t : List Nat) :
    bufBits (b :: t) = byteBits b ++ bufBits t := rfl

theorem bufBits_append (l₁ l₂ : List Nat) :
    bufBits (l₁ ++ l₂) = bufBits l₁ ++ bufBits l₂ := by
  induction l₁ with
  | nil => simp [bufBits_nil, bufBits]
  | cons b t ih => simp [bufBits_cons, ih, List.append_assoc]

theorem bufBits_length (l : List Nat) : (bufBits l).length = 8 * l.length := by
  induction l with
  | nil => simp [bufBits_nil]
  | cons b t ih => simp [bufBits_cons, ih, byteBits_length]; ring

theorem natBits_length (n v : Nat) : (natBits n v).length = n := by
  induction n generalizing v with
  | zero => rfl
  | succ k ih => simp [natBits, ih]

/-- Disjoint bitwise-or is addition: if `a` is a multiple of `2 ^ k` and
`b < 2 ^ k`, then `a ||| b = a + b`. -/
theorem or_eq_add_of_lt (a b k : Nat) (ha : a % 2 ^ k = 0) (hb : b < 2 ^ k) :
    a ||| b = a + b := by
  obtain ⟨m, hm⟩ : 2 ^ k ∣ a := Nat.dvd_of_mod_eq_zero ha
  subst hm
  have hpos : ∀ i : Nat, 0 < 2 ^ i := fun i => Nat.pos_pow_of_pos i (by norm_num)
  apply Nat.eq_of_testBit_eq
  intro i
  rw [Nat.testBit_or]
  rcases Nat.lt_or_ge i k with hik | hik
  · have hy : 2 ^ k * m = 2 ^ i * (2 ^ (k - i) * m) := by
      rw [← Nat.mul_assoc, ← pow_add]
      congr 2
      omega
    have h2 : 2 ^ (k - i) * m % 2 = 0 := by
      have : (2 : Nat) ∣ 2 ^ (k - i) * m :=
        Dvd.dvd.mul_right (dvd_pow_self 2 (by omega)) m
      omega
    have h1 : (2 ^ k * m).testBit i = false := by
      rw [Nat.testBit_to_div_mod, hy, Nat.mul_div_cancel_left _ (hpos i)]
      simp [h2]
    have h3 : (2 ^ k * m + b).testBit i = b.testBit i := by
      rw [Nat.testBit_to_div_mod, Nat.testBit_to_div_mod]
      have key : (2 ^ k * m + b) / 2 ^ i = 2 ^ (k - i) * m + b / 2 ^ i := by
        rw [hy, Nat.mul_add_div (hpos i)]
      rw [key, decide_eq_decide]
      omega
    rw [h1, h3]
    simp
  · have h1 : b.testBit i = false :=
      Nat.testBit_eq_false_of_lt (lt_of_lt_of_le hb (Nat.pow_le_pow_right (by norm_num) hik))
    have h3 : (2 ^ k * m + b).testBit i = (2 ^ k * m).testBit i := by
      rw [Nat.testBit_to_div_mod, Nat.testBit_to_div_mod]
      have e1 : (2 ^ k * m + b) / 2 ^ i = (2 ^ k * m + b) / 2 ^ k / 2 ^ (i - k) := by
        rw [Nat.div_div_eq_div_mul, ← pow_add]
        congr 2
        omega
      have e2 : 2 ^ k * m / 2 ^ i = 2 ^ k * m / 2 ^ k / 2 ^ (i - k) := by
        rw [Nat.div_div_eq_div_mul, ← pow_add]
        congr 2
        omega
      have e3 : (2 ^ k * m + b) / 2 ^ k = m := by
        rw [Nat.mul_add_div (hpos k)]
        have : b / 2 ^ k = 0 := Nat.div_eq_of_lt hb
        omega
      have e4 : 2 ^ k * m / 2 ^ k = m := Nat.mul_div_cancel_left _ (hpos k)
      rw [e1, e2, e3, e4]
    rw [h1, h3]
    simp

/-- Masking with `(2 ^ c - 1) <<< s` extracts the bit field at offset `s`. -/
theorem and_mask_shift (B c s : Nat) :
    B &&& ((2 ^ c - 1) <<< s) = B / 2 ^ s % 2 ^ c * 2 ^ s := by
  have hr : B / 2 ^ s % 2 ^ c * 2 ^ s = ((B >>> s) % 2 ^ c) <<< s := by
    rw [Nat.shiftLeft_eq, Nat.shiftRight_eq_div_pow]
  rw [hr]
  apply Nat.eq_of_testBit_eq
  intro i
  rw [Nat.testBit_and, Nat.testBit_shiftLeft, Nat.testBit_shiftLeft,
    Nat.testBit_two_pow_sub_one, Nat.testBit_mod_two_pow, Nat.testBit_shiftRight]
  rcases Nat.lt_or_ge i s with his | his
  · have h0 : ¬ (s ≤ i) := by omega
    simp [h0]
  · have hsi : s ≤ i := his
    rcases Nat.lt_or_ge (i - s) c with hic | hic
    · simp [hsi, hic, show s + (i - s) = i by omega, Bool.and_comm]
    · have h0 : ¬ (i - s < c) := by omega
      simp [hsi, h0]

/-- Reducing `w` modulo `2 ^ c` does not change bits below position `c`. -/
theorem pow_mod_div (w c k : Nat) (h : k < c) :
    w % 2 ^ c / 2 ^ k % 2 = w / 2 ^ k % 2 := by
  have h1 := Nat.testBit_mod_two_pow w c k
  rw [Nat.testBit_to_div_mod, Nat.testBit_to_div_mod] at h1
  rw [decide_eq_true h, Bool.true_and] at h1
  have h2 : (w % 2 ^ c / 2 ^ k % 2 = 1) ↔ (w / 2 ^ k % 2 = 1) := decide_eq_decide.mp h1
  have a1 : w % 2 ^ c / 2 ^ k % 2 < 2 := Nat.mod_lt _ (by norm_num)
  have a2 : w / 2 ^ k % 2 < 2 := Nat.mod_lt _ (by norm_num)
  omega

/-- Two values with the same low bits have the same MSB-first expansions. -/
theorem natBits_congr (n v w : Nat) (h : ∀ i, i < n → v / 2 ^ i % 2 = w / 2 ^ i % 2) :
    natBits n v = natBits n w := by
  induction n with
  | zero => rfl
  | succ k ih =>
    simp only [natBits]
    rw [h k (by omega), ih (fun i hi => h i (by omega))]

/-- `natBits` only sees the value modulo `2 ^ n`. -/
theorem natBits_mod (n v : Nat) : natBits n (v % 2 ^ n) = natBits n v := by
  apply natBits_congr
  intro i hi
  exact pow_mod_div v n i hi

/-- Splitting an MSB-first bit expansion. -/
theorem natBits_add (a b v : Nat) :
    natBits (a + b) v = natBits a (v >>> b) ++ natBits b v := by
  induction a with
  | zero => simp [natBits]
  | succ k ih =>
    have h1 : k + 1 + b = (k + b) + 1 := by omega
    rw [h1]
    show v / 2 ^ (k + b) % 2 :: natBits (k + b) v =
      ((v >>> b) / 2 ^ k % 2 :: natBits k (v >>> b)) ++ natBits b v
    rw [ih, List.cons_append]
    congr 1
    rw [Nat.shiftRight_eq_div_pow, Nat.div_div_eq_div_mul, ← pow_add, Nat.add_comm b k]

theorem bitsValFrom_cons (acc b : Nat) (t : List Nat) :
    bitsValFrom acc (b :: t) = bitsValFrom (2 * acc + b) t := rfl

theorem bitsValFrom_append (acc : Nat) (l₁ l₂ : List Nat) :
    bitsValFrom acc (l₁ ++ l₂) = bitsValFrom (bitsValFrom acc l₁) l₂ := by
  simp [bitsValFrom, List.foldl_append]

theorem bitsValFrom_eq (acc : Nat) (l : List Nat) :
    bitsValFrom acc l = acc * 2 ^ l.length + bitsValFrom 0 l := by
  induction l generalizing acc with
  | nil => simp [bitsValFrom]
  | cons b t ih =>
    rw [bitsValFrom_cons, bitsValFrom_cons, ih (2 * acc + b), ih (2 * 0 + b)]
    simp only [List.length_cons, pow_succ]
    ring

/-- `bitsVal` of an MSB-first expansion recovers the value modulo `2 ^ n`. -/
theorem bitsVal_natBits (n v : Nat) : bitsVal (natBits n v) = v % 2 ^ n := by
  induction n generalizing v with
  | zero => simp [natBits, bitsVal, bitsValFrom, Nat.mod_one]
  | succ k ih =>
    show bitsValFrom 0 (natBits (k + 1) v) = v % 2 ^ (k + 1)
    rw [show natBits (k + 1) v = v / 2 ^ k % 2 :: natBits k v from rfl, bitsValFrom_cons,
      bitsValFrom_eq, natBits_length]
    have h2 : bitsValFrom 0 (natBits k v) = v % 2 ^ k := ih v
    rw [h2]
    have h3 : v % 2 ^ (k + 1) = v / 2 ^ k % 2 * 2 ^ k + v % 2 ^ k := by
      have e2 : v % 2 ^ (k + 1) / 2 ^ k = v / 2 ^ k % 2 := by
        have lt2 : v % 2 ^ (k + 1) / 2 ^ k < 2 := by
          apply Nat.div_lt_of_lt_mul
          calc v % 2 ^ (k + 1) < 2 ^ (k + 1) :=
                Nat.mod_lt _ (Nat.pos_pow_of_pos _ (by norm_num))
          _ = 2 ^ k * 2 := by ring
        have h4 := pow_mod_div v (k + 1) k (by omega)
        rw [← Nat.mod_eq_of_lt lt2]
        exact h4
      have e3 : v % 2 ^ (k + 1) % 2 ^ k = v % 2 ^ k :=
        Nat.mod_mod_of_dvd _ (pow_dvd_pow 2 (by omega))
      have e1 := Nat.div_add_mod (v % 2 ^ (k + 1)) (2 ^ k)
      rw [e2, e3] at e1
      rw [← e1, Nat.mul_comm]
    have hz : 2 * 0 + v / 2 ^ k % 2 = v / 2 ^ k % 2 := by omega
    rw [hz]
    omega


set_option maxHeartbeats 1000000 in
/-- Effect of OR-ing a `chunk`-bit field at bit offset `bib` into a byte whose
bits at and past `bib` are still zero (stated additively; the OR is reduced to
`+` separately). -/
theorem byte_patch (a bits bib chunk : Nat) (ha : a < 256) (hbib : bib < 8)
    (hc1 : 1 ≤ chunk) (hc2 : chunk ≤ 8 - bib) (hz : a % 2 ^ (8 - bib) = 0)
    (hb : bits < 2 ^ chunk) :
    byteBits (a + bits * 2 ^ (8 - bib - chunk)) =
      (byteBits a).take bib ++ natBits chunk bits ++ List.replicate (8 - bib - chunk) 0 ∧
    a + bits * 2 ^ (8 - bib - chunk) < 256 := by
  interval_cases bib <;> interval_cases chunk <;>
    simp [byteBits, natBits, List.replicate] <;> omega

set_option maxHeartbeats 1000000 in
/-- A byte whose bit expansion ends in `8 - bib` zeros is a multiple of
`2 ^ (8 - bib)`. -/
theorem byte_tail_zero (a bib : Nat) (ha : a < 256) (hbib : bib < 8)
    (h : (byteBits a).drop bib = List.replicate (8 - bib) 0) :
    a % 2 ^ (8 - bib) = 0 := by
  interval_cases bib <;> simp [byteBits, List.replicate] at h <;> omega

set_option maxHeartbeats 1000000 in
/-- The mask-and-shift chunk extraction of `BitReader::readU` reads exactly the
`chunk` bits of the byte starting at bit offset `bib`. -/
theorem chunk_read (B bib chunk : Nat) (hbib : bib < 8) (hc1 : 1 ≤ chunk)
    (hc2 : chunk ≤ 8 - bib) :
    (B &&& (((1 <<< chunk) - 1) <<< (8 - bib - chunk))) >>> (8 - bib - chunk) =
      bitsVal (((byteBits B).drop bib).take chunk) := by
  have h1 : (1 : Nat) <<< chunk = 2 ^ chunk := by rw [Nat.shiftLeft_eq, Nat.one_mul]
  rw [h1, and_mask_shift, Nat.shiftRight_eq_div_pow,
    Nat.mul_div_cancel _ (Nat.pos_pow_of_pos _ (by norm_num))]
  interval_cases bib <;> interval_cases chunk <;>
    simp [byteBits, bitsVal, bitsValFrom, List.foldl] <;> omega


theorem bufBits_concat (l : List Nat) (a : Nat) :
    bufBits (l ++ [a]) = bufBits l ++ byteBits a := by
  rw [bufBits_append]
  simp [bufBits_cons, bufBits_nil]

theorem byteBits_lt_two (b : Nat) : ∀ x ∈ byteBits b, x < 2 := by
  simp only [byteBits, List.mem_cons, List.not_mem_nil, or_false]
  intro x hx
  rcases hx with h | h | h | h | h | h | h | h <;> subst h <;> omega

theorem bitsVal_lt (l : List Nat) (h : ∀ x ∈ l, x < 2) : bitsVal l < 2 ^ l.length := by
  induction l with
  | nil => simp [bitsVal, bitsValFrom]
  | cons b t ih =>
    have hb : b < 2 := h b (by simp)
    have ht := ih (fun x hx => h x (by simp [hx]))
    show bitsValFrom 0 (b :: t) < 2 ^ (t.length + 1)
    rw [bitsValFrom_cons, bitsValFrom_eq]
    have hb1 : (2 * 0 + b) * 2 ^ t.length ≤ 2 ^ t.length := by
      have : 2 * 0 + b ≤ 1 := by omega
      calc (2 * 0 + b) * 2 ^ t.length ≤ 1 * 2 ^ t.length :=
            Nat.mul_le_mul_right _ this
      _ = 2 ^ t.length := by ring
    have : bitsValFrom 0 t < 2 ^ t.length := ht
    calc (2 * 0 + b) * 2 ^ t.length + bitsValFrom 0 t
        < 2 ^ t.length + 2 ^ t.length := by omega
    _ = 2 ^ (t.length + 1) := by ring

/-- Decomposing the bit view of a buffer at an arbitrary bit position. -/
theorem bufBits_slice (buf : List Nat) (pos : Nat) (h : pos < 8 * buf.length) :
    (bufBits buf).drop pos =
      (byteBits (buf.getD (pos / 8) 0)).drop (pos % 8) ++ bufBits (buf.drop (pos / 8 + 1)) := by
  have hidx : pos / 8 < buf.length := by omega
  have hdec : buf.drop (pos / 8) = buf.getD (pos / 8) 0 :: buf.drop (pos / 8 + 1) := by
    rw [List.drop_eq_getElem_cons hidx]
    congr 1
    rw [List.getD_eq_getElem?_getD, List.getElem?_eq_getElem hidx]
    rfl
  have hbuf : buf = buf.take (pos / 8) ++ (buf.getD (pos / 8) 0 :: buf.drop (pos / 8 + 1)) := by
    rw [← hdec, List.take_append_drop]
  have hlen : (bufBits (buf.take (pos / 8))).length = 8 * (pos / 8) := by
    rw [bufBits_length, List.length_take]
    congr 1
    omega
  calc (bufBits buf).drop pos
      = (bufBits (buf.take (pos / 8)) ++
          (byteBits (buf.getD (pos / 8) 0) ++ bufBits (buf.drop (pos / 8 + 1)))).drop pos := by
        rw [← bufBits_cons, ← bufBits_append, ← hbuf]
  _ = (byteBits (buf.getD (pos / 8) 0) ++ bufBits (buf.drop (pos / 8 + 1))).drop (pos % 8) := by
        rw [List.drop_append_eq_append_drop, hlen,
          List.drop_of_length_le (by rw [hlen]; omega)]
        simp only [List.nil_append]
        congr 1
        omega
  _ = (byteBits (buf.getD (pos / 8) 0)).drop (pos % 8) ++ bufBits (buf.drop (pos / 8 + 1)) := by
        rw [List.drop_append_eq_append_drop, byteBits_length,
          show pos % 8 - 8 = 0 by omega, List.drop_zero]

/-- One chunk iteration of the writer: buffer effect and new invariant. -/
theorem take_patched (P N R : List Nat) (pos chunk : Nat)
    (hP : P.length = pos) (hN : N.length = chunk) :
    (P ++ N ++ R).take (pos + chunk) = P ++ N := by
  rw [List.append_assoc, List.take_append_eq_append_take,
    List.take_of_length_le (by omega), hP,
    show pos + chunk - pos = chunk by omega,
    List.take_append_eq_append_take, List.take_of_length_le (by omega), hN]
  simp

theorem drop_patched (P N R : List Nat) (pos chunk : Nat)
    (hP : P.length = pos) (hN : N.length = chunk) :
    (P ++ N ++ R).drop (pos + chunk) = R := by
  rw [List.append_assoc, List.drop_append_eq_append_drop,
    List.drop_of_length_le (by omega), hP]
  simp only [List.nil_append]
  rw [show pos + chunk - pos = chunk by omega,
    List.drop_append_eq_append_drop, List.drop_of_length_le (by omega), hN]
  simp [show chunk - chunk = 0 by omega]

theorem write_step (buf : List Nat) (pos w chunk : Nat) (hWF : WFW buf pos) (hc1 : 1 ≤ chunk) (hc2 : chunk ≤ 8 - pos % 8) :
    WFW (wstep buf pos w chunk) (pos + chunk) ∧
    bufBits (wstep buf pos w chunk) =
      (bufBits buf).take pos ++ natBits chunk w ++
        List.replicate (8 * (wstep buf pos w chunk).length - (pos + chunk)) 0 := by
  obtain ⟨hbytes, hlen, hdrop⟩ := hWF
  have hone : (1 : Nat) <<< chunk = 2 ^ chunk := by rw [Nat.shiftLeft_eq, Nat.one_mul]
  have hbits_eq : w &&& ((1 <<< chunk) - 1) = w % 2 ^ chunk := by
    rw [hone, Nat.and_pow_two_sub_one_eq_mod]
  have hbits_lt : w &&& ((1 <<< chunk) - 1) < 2 ^ chunk := by
    rw [hbits_eq]
    exact Nat.mod_lt _ (Nat.pos_pow_of_pos _ (by norm_num))
  have hnatw : natBits chunk (w &&& ((1 <<< chunk) - 1)) = natBits chunk w := by
    rw [hbits_eq]
    exact natBits_mod chunk w
  by_cases hb0 : buf = [] ∨ pos % 8 = 0
  · -- byte-aligned case: a fresh zero byte is pushed
    have hpos8 : pos % 8 = 0 := by
      rcases hb0 with h | h
      · have : buf.length = 0 := by rw [h]; rfl
        omega
      · exact h
    have hLpos : 8 * buf.length = pos := by omega
    have hws : wstep buf pos w chunk =
        buf ++ [(w &&& ((1 <<< chunk) - 1)) * 2 ^ (8 - pos % 8 - chunk)] := by
      unfold wstep
      rw [if_pos hb0, List.dropLast_concat, List.getLastD_concat, Nat.zero_or,
        Nat.shiftLeft_eq (w &&& ((1 <<< chunk) - 1))]
    have hpatch := byte_patch 0 (w &&& ((1 <<< chunk) - 1)) 0 chunk (by norm_num)
      (by norm_num) hc1 (by omega) (by simp) hbits_lt
    have hbb : byteBits ((w &&& ((1 <<< chunk) - 1)) * 2 ^ (8 - pos % 8 - chunk)) =
        natBits chunk w ++ List.replicate (8 - pos % 8 - chunk) 0 := by
      rw [hpos8, ← hnatw]
      simpa using hpatch.1
    have hxlt : (w &&& ((1 <<< chunk) - 1)) * 2 ^ (8 - pos % 8 - chunk) < 256 := by
      rw [hpos8]
      simpa using hpatch.2
    have hfull : (bufBits buf).take pos = bufBits buf := by
      rw [List.take_of_length_le (by rw [bufBits_length]; omega)]
    have hlen2 : (wstep buf pos w chunk).length = buf.length + 1 := by
      rw [hws]
      simp
    have hBB : bufBits (wstep buf pos w chunk) =
        (bufBits buf).take pos ++ natBits chunk w ++
          List.replicate (8 - pos % 8 - chunk) 0 := by
      rw [hws, bufBits_concat, hbb, hfull, List.append_assoc]
    have hcount : 8 - pos % 8 - chunk = 8 * (wstep buf pos w chunk).length - (pos + chunk) := by
      rw [hlen2]
      omega
    refine ⟨⟨?_, ?_, ?_⟩, by rw [hBB, hcount]⟩
    · intro b hb
      rw [hws] at hb
      rcases List.mem_append.mp hb with h | h
      · exact hbytes b h
      · simp only [List.mem_singleton] at h
        subst h
        exact hxlt
    · rw [hlen2]
      omega
    · rw [hBB]
      have l1 : ((bufBits buf).take pos).length = pos := by
        rw [List.length_take, bufBits_length]
        omega
      rw [drop_patched _ _ _ pos chunk l1 (natBits_length _ _), hcount, hlen2]
  · -- mid-byte case: OR into the existing last byte
    push_neg at hb0
    obtain ⟨hne, hbibne⟩ := hb0
    have hbib_lt : pos % 8 < 8 := Nat.mod_lt _ (by norm_num)
    rcases List.eq_nil_or_concat buf with h | ⟨front, a, hfa⟩
    · exact absurd h hne
    rw [List.concat_eq_append] at hfa
    subst hfa
    have hlen' : front.length + 1 = (pos + 7) / 8 := by simpa using hlen
    have hLpos : 8 * front.length = pos - pos % 8 := by omega
    have hpos_ge : pos % 8 ≤ pos := Nat.mod_le _ _
    have ha256 : a < 256 := hbytes a (by simp)
    have hdropA : (byteBits a).drop (pos % 8) = List.replicate (8 - pos % 8) 0 := by
      have e1 : (bufBits (front ++ [a])).drop pos =
          (byteBits a).drop (pos - (bufBits front).length) := by
        rw [bufBits_concat, List.drop_append_eq_append_drop,
          List.drop_of_length_le (by rw [bufBits_length]; omega)]
        simp
      rw [e1, bufBits_length] at hdrop
      rw [show pos - 8 * front.length = pos % 8 by omega] at hdrop
      rw [hdrop]
      congr 1
      simp only [List.length_append, List.length_cons, List.length_nil]
      omega
    have haz : a % 2 ^ (8 - pos % 8) = 0 := byte_tail_zero a (pos % 8) ha256 hbib_lt hdropA
    have hcond : ¬ (front ++ [a] = [] ∨ pos % 8 = 0) := by
      simp [hbibne]
    have hor : a ||| ((w &&& ((1 <<< chunk) - 1)) <<< (8 - pos % 8 - chunk)) =
        a + (w &&& ((1 <<< chunk) - 1)) * 2 ^ (8 - pos % 8 - chunk) := by
      rw [Nat.shiftLeft_eq (w &&& ((1 <<< chunk) - 1))]
      apply or_eq_add_of_lt _ _ (8 - pos % 8) haz
      calc (w &&& ((1 <<< chunk) - 1)) * 2 ^ (8 - pos % 8 - chunk)
          < 2 ^ chunk * 2 ^ (8 - pos % 8 - chunk) :=
            (Nat.mul_lt_mul_right (Nat.pos_pow_of_pos _ (by norm_num))).mpr hbits_lt
      _ = 2 ^ (8 - pos % 8) := by
            rw [← pow_add]
            congr 1
            omega
    have hws : wstep (front ++ [a]) pos w chunk =
        front ++ [a + (w &&& ((1 <<< chunk) - 1)) * 2 ^ (8 - pos % 8 - chunk)] := by
      unfold wstep
      rw [if_neg hcond, List.dropLast_concat, List.getLastD_concat, hor]
    have hpatch := byte_patch a (w &&& ((1 <<< chunk) - 1)) (pos % 8) chunk ha256
      hbib_lt hc1 hc2 haz hbits_lt
    have htake : (bufBits (front ++ [a])).take pos =
        bufBits front ++ (byteBits a).take (pos % 8) := by
      rw [bufBits_concat, List.take_append_eq_append_take,
        List.take_of_length_le (by rw [bufBits_length]; omega), bufBits_length]
      congr 2
      omega
    have hlen2 : (wstep (front ++ [a]) pos w chunk).length = front.length + 1 := by
      rw [hws]
      simp
    have hBB : bufBits (wstep (front ++ [a]) pos w chunk) =
        (bufBits (front ++ [a])).take pos ++ natBits chunk w ++
          List.replicate (8 - pos % 8 - chunk) 0 := by
      rw [hws, bufBits_concat, hpatch.1, hnatw, htake]
      simp [List.append_assoc]
    have hcount : 8 - pos % 8 - chunk =
        8 * (wstep (front ++ [a]) pos w chunk).length - (pos + chunk) := by
      rw [hlen2]
      omega
    refine ⟨⟨?_, ?_, ?_⟩, by rw [hBB, hcount]⟩
    · intro b hb
      rw [hws] at hb
      rcases List.mem_append.mp hb with h | h
      · exact hbytes b (by simp [h])
      · simp only [List.mem_singleton] at h
        subst h
        exact hpatch.2
    · rw [hlen2]
      omega
    · rw [hBB]
      have l1 : ((bufBits (front ++ [a])).take pos).length = pos := by
        rw [List.length_take, bufBits_length]
        simp only [List.length_append, List.length_cons, List.length_nil]
        omega
      rw [drop_patched _ _ _ pos chunk l1 (natBits_length _ _), hcount, hlen2]

/-- Unfolding one iteration of the writer loop onto `wstep`. -/
theorem writeChunksF_succ (f : Nat) (buf : List Nat) (pos value left : Nat) (h0 : left ≠ 0) :
    writeChunksF (f + 1) buf pos value left =
      writeChunksF f
        (wstep buf pos (value >>> (left - min left (8 - pos % 8))) (min left (8 - pos % 8)))
        (pos + min left (8 - pos % 8)) value (left - min left (8 - pos % 8)) := by
  conv_lhs => rw [writeChunksF]
  rw [if_neg h0]
  rfl

theorem writeChunksF_zero_left (fuel : Nat) (buf : List Nat) (pos value : Nat) :
    writeChunksF fuel buf pos value 0 = (buf, pos) := by
  cases fuel with
  | zero => rfl
  | succ f => rw [writeChunksF, if_pos rfl]

/-- Full specification of the `BitWriter::writeU` chunk loop: the position
advances by `left`, the invariant is preserved, and the bit content becomes
the old content followed by the `left` low bits of `value` (MSB-first) and
zero padding to the next byte boundary. -/
theorem writeChunksF_spec (fuel : Nat) : ∀ left, left ≤ fuel → ∀ buf pos value, WFW buf pos →
    (writeChunksF fuel buf pos value left).2 = pos + left ∧
    WFW (writeChunksF fuel buf pos value left).1 (pos + left) ∧
    bufBits (writeChunksF fuel buf pos value left).1 =
      (bufBits buf).take pos ++ natBits left value ++
        List.replicate (8 * (writeChunksF fuel buf pos value left).1.length - (pos + left)) 0 := by
  induction fuel with
  | zero =>
    intro left hl buf pos value hWF
    have h0 : left = 0 := by omega
    subst h0
    rw [writeChunksF_zero_left]
    refine ⟨by omega, by simpa using hWF, ?_⟩
    have hd := hWF.2.2
    have hL := hWF.2.1
    simp only [natBits, List.append_nil, Nat.add_zero]
    rw [← hd, List.take_append_drop]
  | succ f ih =>
    intro left hl buf pos value hWF
    by_cases h0 : left = 0
    · subst h0
      rw [writeChunksF_zero_left]
      refine ⟨by omega, by simpa using hWF, ?_⟩
      have hd := hWF.2.2
      simp only [natBits, List.append_nil, Nat.add_zero]
      rw [← hd, List.take_append_drop]
    · have hbib_lt : pos % 8 < 8 := Nat.mod_lt _ (by norm_num)
      have hc1 : 1 ≤ min left (8 - pos % 8) := by omega
      have hc2 : min left (8 - pos % 8) ≤ 8 - pos % 8 := by omega
      obtain ⟨hWF2, hbits2⟩ :=
        write_step buf pos (value >>> (left - min left (8 - pos % 8)))
          (min left (8 - pos % 8)) hWF hc1 hc2
      rw [writeChunksF_succ f buf pos value left h0]
      obtain ⟨ihpos, ihWF, ihbits⟩ :=
        ih (left - min left (8 - pos % 8)) (by omega) _ _ value hWF2
      refine ⟨by rw [ihpos]; omega, ?_, ?_⟩
      · have : pos + min left (8 - pos % 8) + (left - min left (8 - pos % 8)) =
            pos + left := by omega
        rw [this] at ihWF
        exact ihWF
      · rw [ihbits]
        have hposle : pos ≤ (bufBits buf).length := by
          rw [bufBits_length, hWF.2.1]
          omega
        have l1 : ((bufBits buf).take pos).length = pos := by
          rw [List.length_take]
          omega
        have hta : (bufBits (wstep buf pos (value >>> (left - min left (8 - pos % 8)))
            (min left (8 - pos % 8)))).take (pos + min left (8 - pos % 8)) =
            (bufBits buf).take pos ++
              natBits (min left (8 - pos % 8)) (value >>> (left - min left (8 - pos % 8))) := by
          rw [hbits2]
          exact take_patched _ _ _ pos (min left (8 - pos % 8)) l1 (natBits_length _ _)
        rw [hta]
        have hsplit : natBits left value =
            natBits (min left (8 - pos % 8)) (value >>> (left - min left (8 - pos % 8))) ++
              natBits (left - min left (8 - pos % 8)) value := by
          rw [← natBits_add]
          congr 1
          omega
        rw [hsplit]
        have harith : pos + min left (8 - pos % 8) + (left - min left (8 - pos % 8)) =
            pos + left := by omega
        rw [harith]
        simp only [List.append_assoc]

/-- Unfolding one iteration of the reader loop. -/
theorem readChunksF_succ (f : Nat) (buf : List Nat) (pos left acc : Nat) (h0 : left ≠ 0) :
    readChunksF (f + 1) buf pos left acc =
      readChunksF f buf (pos + min left (8 - pos % 8)) (left - min left (8 - pos % 8))
        ((acc <<< min left (8 - pos % 8)) |||
          ((buf.getD (pos / 8) 0 &&&
            (((1 <<< min left (8 - pos % 8)) - 1) <<<
              (8 - pos % 8 - min left (8 - pos % 8)))) >>>
            (8 - pos % 8 - min left (8 - pos % 8)))) := by
  conv_lhs => rw [readChunksF]
  rw [if_neg h0]

theorem readChunksF_zero_left (fuel : Nat) (buf : List Nat) (pos acc : Nat) :
    readChunksF fuel buf pos 0 acc = acc := by
  cases fuel with
  | zero => rfl
  | succ f => rw [readChunksF, if_pos rfl]

/-- Full specification of the `BitReader::readU` chunk loop: it folds the
`left` bits starting at bit position `pos` onto the accumulator. -/
theorem readChunksF_spec (fuel : Nat) : ∀ left, left ≤ fuel → ∀ buf pos acc,
    pos + left ≤ 8 * buf.length →
    readChunksF fuel buf pos left acc =
      bitsValFrom acc (((bufBits buf).drop pos).take left) := by
  induction fuel with
  | zero =>
    intro left hl buf pos acc hb
    have h0 : left = 0 := by omega
    subst h0
    rw [readChunksF_zero_left]
    simp [bitsValFrom]
  | succ f ih =>
    intro left hl buf pos acc hb
    by_cases h0 : left = 0
    · subst h0
      rw [readChunksF_zero_left]
      simp [bitsValFrom]
    · have hbib_lt : pos % 8 < 8 := Nat.mod_lt _ (by norm_num)
      have hc1 : 1 ≤ min left (8 - pos % 8) := by omega
      have hc2 : min left (8 - pos % 8) ≤ 8 - pos % 8 := by omega
      have hposlt : pos < 8 * buf.length := by omega
      rw [readChunksF_succ f buf pos left acc h0]
      rw [ih (left - min left (8 - pos % 8)) (by omega) buf
        (pos + min left (8 - pos % 8)) _ (by omega)]
      -- identify the chunk bits
      have hchunk := chunk_read (buf.getD (pos / 8) 0) (pos % 8)
        (min left (8 - pos % 8)) hbib_lt hc1 hc2
      have hslice := bufBits_slice buf pos hposlt
      have hsliceC : ((bufBits buf).drop pos).take (min left (8 - pos % 8)) =
          ((byteBits (buf.getD (pos / 8) 0)).drop (pos % 8)).take
            (min left (8 - pos % 8)) := by
        have hlen8 : ((byteBits (buf.getD (pos / 8) 0)).drop (pos % 8)).length =
            8 - pos % 8 := by
          rw [List.length_drop, byteBits_length]
        rw [hslice, List.take_append_eq_append_take, hlen8,
          show min left (8 - pos % 8) - (8 - pos % 8) = 0 by omega]
        simp
      have hbits_lt2 : bitsVal (((byteBits (buf.getD (pos / 8) 0)).drop (pos % 8)).take
          (min left (8 - pos % 8))) < 2 ^ (min left (8 - pos % 8)) := by
        have hlt := bitsVal_lt (((byteBits (buf.getD (pos / 8) 0)).drop (pos % 8)).take
          (min left (8 - pos % 8)))
          (fun x hx => byteBits_lt_two _ x (List.mem_of_mem_drop (List.mem_of_mem_take hx)))
        have hlen9 : (((byteBits (buf.getD (pos / 8) 0)).drop (pos % 8)).take
            (min left (8 - pos % 8))).length = min left (8 - pos % 8) := by
          rw [List.length_take, List.length_drop, byteBits_length]
          omega
        rw [hlen9] at hlt
        exact hlt
      have hacc : (acc <<< min left (8 - pos % 8)) |||
          ((buf.getD (pos / 8) 0 &&&
            (((1 <<< min left (8 - pos % 8)) - 1) <<<
              (8 - pos % 8 - min left (8 - pos % 8)))) >>>
            (8 - pos % 8 - min left (8 - pos % 8))) =
          acc * 2 ^ (min left (8 - pos % 8)) +
            bitsVal (((byteBits (buf.getD (pos / 8) 0)).drop (pos % 8)).take
              (min left (8 - pos % 8))) := by
        rw [hchunk, Nat.shiftLeft_eq acc]
        apply or_eq_add_of_lt _ _ (min left (8 - pos % 8))
        · exact Nat.mul_mod_left _ _
        · exact hbits_lt2
      rw [hacc]
      -- split the read window
      have hsplit : ((bufBits buf).drop pos).take left =
          ((bufBits buf).drop pos).take (min left (8 - pos % 8)) ++
            ((bufBits buf).drop (pos + min left (8 - pos % 8))).take
              (left - min left (8 - pos % 8)) := by
        have e1 : ((bufBits buf).drop pos).drop (min left (8 - pos % 8)) =
            (bufBits buf).drop (pos + min left (8 - pos % 8)) := by
          rw [List.drop_drop]
        rw [← e1, ← List.take_add]
        congr 1
        omega
      rw [hsplit, bitsValFrom_append]
      congr 1
      rw [bitsValFrom_eq, hsliceC]
      have hlenC : (((byteBits (buf.getD (pos / 8) 0)).drop (pos % 8)).take
          (min left (8 - pos % 8))).length = min left (8 - pos % 8) := by
        rw [List.length_take, List.length_drop, byteBits_length]
        omega
      rw [hlenC]
      rfl

/-- `BitWriter::writeU` on a well-formed writer: success, invariant
preservation, and the exact bit-level effect. -/
theorem writeU_spec (w : BitWriter) (v n : Nat) (hWF : WFW w.buf w.pos)
    (h1 : 1 ≤ n) (h2 : n ≤ 64) :
    ∃ w' : BitWriter, w.writeU v n = .ok w' ∧ WFW w'.buf w'.pos ∧
      w'.pos = w.pos + n ∧
      bufBits w'.buf = (bufBits w.buf).take w.pos ++ natBits n v ++
        List.replicate (8 * w'.buf.length - (w.pos + n)) 0 := by
  have hcond : ¬ (n = 0 ∨ 64 < n) := by omega
  have hv' : natBits n (if n < 64 then (v % 2 ^ 64) &&& ((1 <<< n) - 1) else v % 2 ^ 64) =
      natBits n v := by
    by_cases hn64 : n < 64
    · rw [if_pos hn64, show (1 : Nat) <<< n = 2 ^ n by rw [Nat.shiftLeft_eq, Nat.one_mul],
        Nat.and_pow_two_sub_one_eq_mod,
        Nat.mod_mod_of_dvd _ (pow_dvd_pow 2 (by omega)), natBits_mod]
    · rw [if_neg hn64, show n = 64 by omega, natBits_mod]
  obtain ⟨hpos, hWF', hbits⟩ := writeChunksF_spec n n (le_refl n) w.buf w.pos
    (if n < 64 then (v % 2 ^ 64) &&& ((1 <<< n) - 1) else v % 2 ^ 64) hWF
  refine ⟨⟨(writeChunksF n w.buf w.pos
      (if n < 64 then (v % 2 ^ 64) &&& ((1 <<< n) - 1) else v % 2 ^ 64) n).1,
    (writeChunksF n w.buf w.pos
      (if n < 64 then (v % 2 ^ 64) &&& ((1 <<< n) - 1) else v % 2 ^ 64) n).2⟩,
    ?_, ?_, ?_, ?_⟩
  · rw [BitWriter.writeU, if_neg hcond]
  · rw [hpos]
    exact hWF'
  · exact hpos
  · rw [hbits, hv']

/-- `BitReader::readU` within bounds returns the bits at the read position. -/
theorem readU_spec (r : BitReader) (n : Nat) (h1 : 1 ≤ n) (h2 : n ≤ 64)
    (hb : r.pos + n ≤ 8 * r.buf.length) :
    r.readU n = .ok (bitsVal (((bufBits r.buf).drop r.pos).take n), ⟨r.buf, r.pos + n⟩) := by
  have hcond : ¬ (n = 0 ∨ 64 < n) := by omega
  have havail : ¬ (r.bitsAvailable < n) := by
    unfold BitReader.bitsAvailable
    omega
  rw [BitReader.readU, BitReader.boundsCheck, if_neg hcond, if_neg havail]
  rw [readChunksF_spec n n (le_refl n) r.buf r.pos 0 hb]
  rfl

theorem byteBits_inj (a b : Nat) (ha : a < 256) (hb : b < 256)
    (h : byteBits a = byteBits b) : a = b := by
  simp only [byteBits, List.cons.injEq, and_true] at h
  omega

theorem bufBits_inj_prefix (k : Nat) : ∀ l l' : List Nat,
    (∀ b ∈ l, b < 256) → (∀ b ∈ l', b < 256) →
    (bufBits l).take (8 * k) = (bufBits l').take (8 * k) →
    k ≤ l.length → k ≤ l'.length →
    l.take k = l'.take k := by
  induction k with
  | zero => intro l l' _ _ _ _ _; simp
  | succ m ih =>
    intro l l' hl hl' h hk hk'
    cases l with
    | nil => simp at hk
    | cons a t =>
      cases l' with
      | nil => simp at hk'
      | cons a' t' =>
        have key : ∀ (x : Nat) (u : List Nat), (bufBits (x :: u)).take (8 * (m + 1)) =
            byteBits x ++ (bufBits u).take (8 * m) := by
          intro x u
          rw [bufBits_cons, List.take_append_eq_append_take,
            List.take_of_length_le (by rw [byteBits_length]; omega), byteBits_length,
            show 8 * (m + 1) - 8 = 8 * m by omega]
        rw [key, key] at h
        have hba : byteBits a = byteBits a' := by
          have l8 : (byteBits a).length = (byteBits a').length := by
            rw [byteBits_length, byteBits_length]
          exact List.append_inj_left h l8
        have hat : a = a' := byteBits_inj a a' (hl a (by simp)) (hl' a' (by simp)) hba
        have htt : (bufBits t).take (8 * m) = (bufBits t').take (8 * m) :=
          List.append_inj_right h (by rw [byteBits_length, byteBits_length])
        subst hat
        simp only [List.take_succ_cons]
        congr 1
        exact ih t t' (fun b hb => hl b (by simp [hb])) (fun b hb => hl' b (by simp [hb]))
          htt (by simpa using hk) (by simpa using hk')

theorem getD_take (l : List Nat) (m i : Nat) (d : Nat) (h : i < m) :
    (l.take m).getD i d = l.getD i d := by
  rw [List.getD_eq_getElem?_getD, List.getD_eq_getElem?_getD, List.getElem?_take]
  simp [h]

/-- C2: for every reachable `BitWriter` state at bit position `p`, every
`1 ≤ n ≤ 64` and every 64-bit unsigned `v`, writing the low `n` bits of `v`
with `BitWriter::writeU` and then reading `n` bits at position `p` with
`BitReader::readU` over the produced buffer returns exactly `v` masked to its
low `n` bits. -/
theorem c2_writeU_readU_roundtrip (w : BitWriter) (v n : Nat)
    (hWF : WFW w.buf w.pos) (h1 : 1 ≤ n) (h2 : n ≤ 64) (hv : v < 2 ^ 64) :
    ∃ w' : BitWriter, w.writeU v n = .ok w' ∧
      BitReader.readU ⟨w'.buf, w.pos⟩ n =
        .ok (v &&& (2 ^ n - 1), ⟨w'.buf, w.pos + n⟩) := by
  obtain ⟨w', hok, hWF', hpos, hbits⟩ := writeU_spec w v n hWF h1 h2
  refine ⟨w', hok, ?_⟩
  have hb : w.pos + n ≤ 8 * w'.buf.length := by
    have e1 := hWF'.2.1
    rw [hpos] at e1
    omega
  rw [readU_spec ⟨w'.buf, w.pos⟩ n h1 h2 (by simpa using hb)]
  have l1 : ((bufBits w.buf).take w.pos).length = w.pos := by
    rw [List.length_take, bufBits_length]
    have := hWF.2.1
    omega
  have hdropv : (bufBits w'.buf).drop w.pos =
      natBits n v ++ List.replicate (8 * w'.buf.length - (w.pos + n)) 0 := by
    rw [hbits, List.append_assoc, List.drop_append_eq_append_drop,
      List.drop_of_length_le (by rw [l1]), l1, show w.pos - w.pos = 0 by omega,
      List.drop_zero, List.nil_append]
  have htakev : ((bufBits w'.buf).drop w.pos).take n = natBits n v := by
    rw [hdropv, List.take_append_eq_append_take,
      List.take_of_length_le (by rw [natBits_length]), natBits_length,
      show n - n = 0 by omega]
    simp
  rw [show ((⟨w'.buf, w.pos⟩ : BitReader).buf) = w'.buf from rfl,
    show ((⟨w'.buf, w.pos⟩ : BitReader).pos) = w.pos from rfl,
    htakev, bitsVal_natBits, ← Nat.and_pow_two_sub_one_eq_mod]

/-- C2 witness: a concrete partially-filled writer state. -/
theorem c2_witness : ∃ w' : BitWriter, (BitWriter.mk [160] 3).writeU 22 5 = .ok w' ∧
    BitReader.readU ⟨w'.buf, 3⟩ 5 = .ok (22 &&& (2 ^ 5 - 1), ⟨w'.buf, 3 + 5⟩) :=
  c2_writeU_readU_roundtrip ⟨[160], 3⟩ 22 5 (by decide) (by decide) (by decide) (by decide)

/-- C10: every successful `BitWriter::writeU` call is append-only:
`bitsWritten` grows by exactly `n`, every previously completed byte is
unchanged, and every previously written bit keeps its value. -/
theorem c10_writeU_append_only (w : BitWriter) (v n : Nat) (w' : BitWriter)
    (hWF : WFW w.buf w.pos) (hok : w.writeU v n = .ok w') :
    w'.bitsWritten = w.bitsWritten + n ∧
    w'.buf.take (w.pos / 8) = w.buf.take (w.pos / 8) ∧
    ∀ i, i < w.pos → (bufBits w'.buf).getD i 0 = (bufBits w.buf).getD i 0 := by
  by_cases hcond : n = 0 ∨ 64 < n
  · rw [BitWriter.writeU, if_pos hcond] at hok
    exact absurd hok (by simp)
  · obtain ⟨w'', hok', hWF'', hpos, hbits⟩ :=
      writeU_spec w v n hWF (by omega) (by omega)
    rw [hok'] at hok
    have hw : w'' = w' := by
      simpa using hok
    subst hw
    have l1 : ((bufBits w.buf).take w.pos).length = w.pos := by
      rw [List.length_take, bufBits_length]
      have := hWF.2.1
      omega
    refine ⟨hpos, ?_, ?_⟩
    · have hbytetake : (bufBits w''.buf).take (8 * (w.pos / 8)) =
          (bufBits w.buf).take (8 * (w.pos / 8)) := by
        rw [hbits, List.append_assoc, List.take_append_eq_append_take, l1,
          show 8 * (w.pos / 8) - w.pos = 0 by omega, List.take_zero, List.append_nil,
          List.take_take]
        congr 1
        omega
      apply bufBits_inj_prefix (w.pos / 8) w''.buf w.buf hWF''.1 hWF.1 hbytetake
      · have e1 := hWF''.2.1
        rw [hpos] at e1
        omega
      · have := hWF.2.1
        omega
    · intro i hi
      rw [hbits, List.append_assoc]
      rw [List.getD_append _ _ _ _ (by omega)]
      exact getD_take _ _ _ _ hi

/-- C10 witness: a concrete write on a partially-filled writer. -/
theorem c10_witness :
    (BitWriter.mk [171, 234] 16).bitsWritten = (BitWriter.mk [171, 192] 10).bitsWritten + 6 ∧
    (BitWriter.mk [171, 234] 16).buf.take (10 / 8) = (BitWriter.mk [171, 192] 10).buf.take (10 / 8) ∧
    ∀ i, i < 10 → (bufBits (BitWriter.mk [171, 234] 16).buf).getD i 0 =
      (bufBits (BitWriter.mk [171, 192] 10).buf).getD i 0 :=
  c10_writeU_append_only ⟨[171, 192], 10⟩ 42 6 ⟨[171, 234], 16⟩ (by decide) (by rfl)

/-- C7: for every data item of structural kind Explicit/SP/RE (realised by
the loader as `ItemType::SP`) and every item buffer: an empty buffer fails;
a first byte `L` with `1 ≤ L ≤ remaining` yields the next `L - 1` bytes as
the opaque payload with exactly `L` bytes consumed; `L` outside that range
fails.  (The source reports both failures as thrown `runtime_error`s, the
taxonomy kind `Truncated` of the spec.) -/
theorem c7_explicit_decode (d : DataItemDef) (buf : List Nat) (hty : d.type = ItemType.SP) :
    (buf = [] → decodeItem d buf = .error ("Item " ++ d.id ++ ": empty buffer for Explicit")) ∧
    (buf ≠ [] → 1 ≤ buf.getD 0 0 → buf.getD 0 0 ≤ buf.length →
      decodeItem d buf = .ok ({ DecodedItem.init d.id d.type with
        raw_bytes := (buf.drop 1).take (buf.getD 0 0 - 1) }, buf.getD 0 0)) ∧
    (buf ≠ [] → (buf.getD 0 0 = 0 ∨ buf.length < buf.getD 0 0) →
      decodeItem d buf = .error ("Item " ++ d.id ++ ": Explicit length out of range")) := by
  refine ⟨?_, ?_, ?_⟩
  · intro h
    subst h
    simp [decodeItem, hty]
  · intro hne h1 h2
    have hlen0 : ¬ (buf.length = 0) := by
      cases buf
      · exact absurd rfl hne
      · simp
    simp only [decodeItem, hty]
    rw [if_neg hlen0, if_neg (by omega)]
  · intro hne hbad
    have hlen0 : ¬ (buf.length = 0) := by
      cases buf
      · exact absurd rfl hne
      · simp
    simp only [decodeItem, hty]
    rw [if_neg hlen0, if_pos (by omega)]

/-- C7 witness: a 3-byte Explicit item followed by a stray byte. -/
theorem c7_witness :
    decodeItem spDef [3, 10, 20, 99] =
      .ok ({ DecodedItem.init "SP" ItemType.SP with raw_bytes := [10, 20] }, 3) := by
  have h := (c7_explicit_decode spDef [3, 10, 20, 99] (by decide)).2.1
    (by decide) (by decide) (by decide)
  simpa using h

/-- C9: encoding a Repetitive (FX) item with an empty repetition list emits
the single byte `0x00`, and decoding that byte yields the one-entry list
`[0]` (the documented wire asymmetry). -/
theorem c9_repetitive_empty (d : DataItemDef) (val : DecodedItem)
    (hty : d.type = ItemType.Repetitive) (hreps : val.repetitions = []) :
    encodeItem d val = .ok [0] ∧
    decodeItem d [0] = .ok ({ DecodedItem.init d.id d.type with repetitions := [0] }, 1) := by
  constructor
  · simp [encodeItem, hty, hreps]
    rfl
  · simp [decodeItem, hty]
    rfl

/-- C9 witness: the concrete Repetitive definition. -/
theorem c9_witness :
    encodeItem repDef (DecodedItem.init "050" ItemType.Repetitive) = .ok [0] ∧
    decodeItem repDef [0] =
      .ok ({ DecodedItem.init "050" ItemType.Repetitive with repetitions := [0] }, 1) :=
  c9_repetitive_empty repDef (DecodedItem.init "050" ItemType.Repetitive) (by decide) (by decide)

theorem writeBytes_nil (w : BitWriter) : w.writeBytes [] = .ok w := rfl

theorem writeBytes_cons (w : BitWriter) (x : Nat) (t : List Nat) :
    w.writeBytes (x :: t) =
      match w.writeByte x with
      | .error msg => .error msg
      | .ok w' => w'.writeBytes t := rfl

/-- `BitWriter::writeByte` from a byte-aligned well-formed state appends one
byte (the value reduced modulo 256 by the writer mask). -/
theorem writeByte_aligned (w : BitWriter) (b : Nat) (hWF : WFW w.buf w.pos)
    (hal : w.pos % 8 = 0) :
    w.writeByte b = .ok ⟨w.buf ++ [b % 256], w.pos + 8⟩ ∧
    WFW (w.buf ++ [b % 256]) (w.pos + 8) := by
  have hws : wstep w.buf w.pos ((b % 256) >>> 0) 8 = w.buf ++ [b % 256] := by
    unfold wstep
    rw [if_pos (Or.inr hal), List.dropLast_concat, List.getLastD_concat,
      Nat.shiftRight_zero,
      show ((1 : Nat) <<< 8) - 1 = 2 ^ 8 - 1 from rfl, Nat.and_pow_two_sub_one_eq_mod,
      Nat.mod_mod_of_dvd _ dvd_rfl, show 8 - w.pos % 8 - 8 = 0 by omega,
      Nat.shiftLeft_zero, Nat.zero_or]
  have hcomp : w.writeByte b = .ok ⟨w.buf ++ [b % 256], w.pos + 8⟩ := by
    rw [BitWriter.writeByte, BitWriter.writeU, if_neg (by omega)]
    have hv : (if 8 < 64 then (b % 2 ^ 64) &&& ((1 <<< 8) - 1) else b % 2 ^ 64) = b % 256 := by
      rw [if_pos (by omega), show ((1 : Nat) <<< 8) - 1 = 2 ^ 8 - 1 from rfl,
        Nat.and_pow_two_sub_one_eq_mod,
        Nat.mod_mod_of_dvd _ (by norm_num : (2 : Nat) ^ 8 ∣ 2 ^ 64)]
      norm_num
    simp only [hv]
    rw [writeChunksF_succ 7 w.buf w.pos (b % 256) 8 (by omega),
      show min 8 (8 - w.pos % 8) = 8 by omega,
      show (8 : Nat) - 8 = 0 from rfl, writeChunksF_zero_left, hws]
  refine ⟨hcomp, ?_⟩
  obtain ⟨w', hok, hWF', hpos, _⟩ := writeU_spec w b 8 hWF (by omega) (by omega)
  have hw' : w' = ⟨w.buf ++ [b % 256], w.pos + 8⟩ := by
    have h2 := hcomp
    rw [BitWriter.writeByte, hok] at h2
    simpa using h2
  rw [hw'] at hWF'
  simpa using hWF'

/-- `BitWriter::writeBytes` from a byte-aligned well-formed state appends the
bytes unchanged. -/
theorem writeBytes_aligned (data : List Nat) : ∀ w : BitWriter, WFW w.buf w.pos →
    w.pos % 8 = 0 → (∀ x ∈ data, x < 256) →
    w.writeBytes data = .ok ⟨w.buf ++ data, w.pos + 8 * data.length⟩ ∧
    WFW (w.buf ++ data) (w.pos + 8 * data.length) := by
  induction data with
  | nil =>
    intro w hWF hal hlt
    constructor
    · rw [BitWriter.writeBytes]
      simp
    · simpa using hWF
  | cons x t ih =>
    intro w hWF hal hlt
    obtain ⟨hbyte, hWFb⟩ := writeByte_aligned w x hWF hal
    have hx : x % 256 = x := Nat.mod_eq_of_lt (hlt x (by simp))
    rw [hx] at hbyte hWFb
    obtain ⟨hrec, hWFr⟩ := ih ⟨w.buf ++ [x], w.pos + 8⟩ (by simpa using hWFb)
      (by show (w.pos + 8) % 8 = 0; omega) (fun y hy => hlt y (by simp [hy]))
    have hlist : (w.buf ++ [x]) ++ t = w.buf ++ x :: t := by
      simp
    have harith : w.pos + 8 + 8 * t.length = w.pos + 8 * (x :: t).length := by
      simp only [List.length_cons]
      ring
    constructor
    · rw [writeBytes_cons, hbyte]
      show BitWriter.writeBytes ⟨w.buf ++ [x], w.pos + 8⟩ t = _
      rw [hrec]
      rw [show ({ buf := (w.buf ++ [x]) ++ t, pos := w.pos + 8 + 8 * t.length } : BitWriter) =
        { buf := w.buf ++ x :: t, pos := w.pos + 8 * (x :: t).length } by rw [hlist, harith]]
    · rw [hlist, harith] at hWFr
      exact hWFr

/-- The SP/Explicit/RE encoder (Codec.cpp, lines 546-552): the first byte is
`(1 + payload length) mod 256` — the `uint8_t` cast — followed by the
payload; it never fails. -/
theorem encodeItem_sp (d : DataItemDef) (val : DecodedItem) (hty : d.type = ItemType.SP)
    (hbytes : ∀ x ∈ val.raw_bytes, x < 256) :
    encodeItem d val = .ok (((val.raw_bytes.length + 1) % 256) :: val.raw_bytes) := by
  simp only [encodeItem, hty]
  obtain ⟨hbyte, hWFb⟩ := writeByte_aligned BitWriter.empty
    ((val.raw_bytes.length + 1) % 256) (by decide) (by decide)
  rw [Nat.mod_mod_of_dvd _ dvd_rfl] at hbyte hWFb
  rw [show BitWriter.empty.buf = [] from rfl] at hbyte hWFb
  rw [show BitWriter.empty.pos = 0 from rfl] at hbyte hWFb
  simp only [List.nil_append, Nat.zero_add] at hbyte hWFb
  rw [hbyte]
  obtain ⟨hrest, _⟩ := writeBytes_aligned val.raw_bytes
    ⟨[(val.raw_bytes.length + 1) % 256], 8⟩ hWFb
    (by show (8 : Nat) % 8 = 0; norm_num) hbytes
  show (match BitWriter.writeBytes ⟨[(val.raw_bytes.length + 1) % 256], 8⟩ val.raw_bytes with
    | Except.error msg => Except.error msg
    | Except.ok bw2 => Except.ok bw2.take) = _
  rw [hrest]
  rfl

/-- C5 counterexample: a 255-byte payload gives `1 + 255 = 256 > 255`, yet
`encodeItem` succeeds and emits the wrapped length byte `0` — it does not
fail with BadArgument. -/
theorem c5_counterexample :
    255 < (List.replicate 255 7).length + 1 ∧
    encodeItem spDef { DecodedItem.init "SP" ItemType.SP with
      raw_bytes := List.replicate 255 7 } = .ok (0 :: List.replicate 255 7) := by
  constructor
  · rw [List.length_replicate]
    omega
  · rw [encodeItem_sp _ _ (by decide) (by
      intro x hx
      simp only [List.mem_replicate] at hx
      omega)]
    rw [List.length_replicate]

/-- C5 (amended): for every Explicit/SP/RE item encode over a byte-valued
payload, the emitted first byte is `(1 + len(payload)) mod 256` (so it equals
`1 + len(payload)` only when that sum is at most 255), the payload follows
unchanged, and the encoder never fails — there is no BadArgument check. -/
theorem c5_sp_encode_length_byte (d : DataItemDef) (val : DecodedItem)
    (hty : d.type = ItemType.SP) (hbytes : ∀ x ∈ val.raw_bytes, x < 256) :
    encodeItem d val = .ok (((val.raw_bytes.length + 1) % 256) :: val.raw_bytes) :=
  encodeItem_sp d val hty hbytes

/-- C5 witness: a small payload, where the length byte is `1 + len`. -/
theorem c5_witness :
    encodeItem spDef { DecodedItem.init "SP" ItemType.SP with raw_bytes := [10, 20] } =
      .ok (((([10, 20] : List Nat).length + 1) % 256) :: [10, 20]) :=
  c5_sp_encode_length_byte spDef _ (by decide) (by decide)

/-- `Codec::encode` with a registered category and a successful record loop
emits the category byte, the big-endian 16-bit value `(3 + payload) % 65536`
(the `uint16_t` cast), then the payload. -/
theorem encode_ok (c : CodecReg) (cat_num : Nat) (records : List DecodedRecord)
    (cat : CategoryDef) (payload : List Nat)
    (hc : nfind? cat_num c = some cat)
    (hp : encodeRecordsAll cat records [] = .ok payload) :
    encode c cat_num records = .ok (cat_num ::
      (((3 + payload.length) % 65536) >>> 8) % 256 ::
      ((3 + payload.length) % 65536 &&& 255) :: payload) := by
  simp only [encode, hc, hp]

/-- In the empty category every record encodes to the single FSPEC byte `0`,
so `n` records yield an `n`-byte payload of zeros. -/
theorem encodeRecordsAll_empty (n : Nat) (acc : List Nat) :
    encodeRecordsAll emptyCat (List.replicate n emptyRec) acc =
      .ok (acc ++ List.replicate n 0) := by
  induction n generalizing acc with
  | zero => simp [encodeRecordsAll]
  | succ m ih =>
    rw [List.replicate_succ]
    show (match encodeRecord emptyRec emptyCat with
      | Except.error msg => Except.error msg
      | Except.ok rb => encodeRecordsAll emptyCat (List.replicate m emptyRec) (acc ++ rb)) = _
    rw [show encodeRecord emptyRec emptyCat = Except.ok [0] from rfl]
    show encodeRecordsAll emptyCat (List.replicate m emptyRec) (acc ++ [0]) = _
    rw [ih]
    simp [List.replicate_succ, List.append_assoc]

/-- C6 counterexample: 70000 one-byte records give a 70000-byte payload, so
the total length 3 + 70000 = 70003 exceeds 65535, yet `encode` succeeds and
emits the wrapped 16-bit length 70003 % 65536 = 4467 (bytes 17, 115) — it
does not fail with TooLarge. -/
theorem c6_counterexample :
    65535 < 3 + (List.replicate 70000 (0 : Nat)).length ∧
    encode [(1, emptyCat)] 1 (List.replicate 70000 emptyRec) =
      .ok (1 :: 17 :: 115 :: List.replicate 70000 0) := by
  constructor
  · rw [List.length_replicate]
    omega
  · have h := encodeRecordsAll_empty 70000 []
    rw [List.nil_append] at h
    rw [encode_ok [(1, emptyCat)] 1 (List.replicate 70000 emptyRec) emptyCat
      (List.replicate 70000 0) (by rfl) h, List.length_replicate]
    rfl

/-- C6 (amended): for every registered category and record list whose record
loop succeeds with some payload, `Codec::encode` emits the category byte, the
big-endian 16-bit total length `(3 + payload) % 65536` — the `uint16_t` cast,
which silently wraps past 65535 — then the payload; there is no TooLarge
check. -/
theorem c6_encode_wrapped_header (c : CodecReg) (cat_num : Nat)
    (records : List DecodedRecord) (cat : CategoryDef) (payload : List Nat)
    (hc : nfind? cat_num c = some cat)
    (hp : encodeRecordsAll cat records [] = .ok payload) :
    encode c cat_num records = .ok (cat_num ::
      (((3 + payload.length) % 65536) >>> 8) % 256 ::
      ((3 + payload.length) % 65536 &&& 255) :: payload) :=
  encode_ok c cat_num records cat payload hc hp

/-- C6 witness: one empty record gives payload `[0]` and header bytes
`1, 0, 4`. -/
theorem c6_witness :
    encode [(1, emptyCat)] 1 [emptyRec] = .ok [1, 0, 4, 0] :=
  c6_encode_wrapped_header [(1, emptyCat)] 1 [emptyRec] emptyCat [0] (by rfl) (by rfl)

/-- When every byte of the buffer has its FX (low) bit set, the FSPEC read
loop of `Codec::decodeRecord` (Codec.cpp, lines 299-304) stops silently at
the end of the buffer, having collected every remaining byte. -/
theorem readFspecLoop_all_fx (buf : List Nat) (hfx : ∀ b ∈ buf, (b &&& 1) = 1) :
    ∀ fuel pos fspec, buf.length ≤ pos + fuel →
      readFspecLoop buf fuel pos fspec = (fspec ++ buf.drop pos, max pos buf.length) := by
  intro fuel
  induction fuel with
  | zero =>
    intro pos fspec hle
    show (fspec, pos) = (fspec ++ buf.drop pos, max pos buf.length)
    rw [List.drop_eq_nil_of_le (by omega), List.append_nil, Nat.max_eq_left (by omega)]
  | succ f ih =>
    intro pos fspec hle
    show (if buf.length ≤ pos then (fspec, pos)
      else if (buf.getD pos 0 &&& 1) = 0 then (fspec ++ [buf.getD pos 0], pos + 1)
      else readFspecLoop buf f (pos + 1) (fspec ++ [buf.getD pos 0])) = _
    by_cases hp : buf.length ≤ pos
    · rw [if_pos hp, List.drop_eq_nil_of_le hp, List.append_nil, Nat.max_eq_left (by omega)]
    · have hp' : pos < buf.length := by omega
      have hg : buf.getD pos 0 = buf[pos] := List.getD_eq_getElem buf 0 hp'
      have hb1 : (buf.getD pos 0 &&& 1) = 1 := by
        rw [hg]
        exact hfx _ (List.getElem_mem hp')
      rw [if_neg hp, if_neg (by rw [hb1]; exact one_ne_zero),
        ih (pos + 1) (fspec ++ [buf.getD pos 0]) (by omega), List.append_assoc,
        List.singleton_append, hg,
        show buf[pos] :: List.drop (pos + 1) buf = List.drop pos buf from
          (List.drop_eq_getElem_cons hp').symm,
        show (pos + 1) ⊔ buf.length = pos ⊔ buf.length by
          rw [Nat.max_eq_right (by omega), Nat.max_eq_right (by omega)]]

/-- Over the empty category, decoding a nonempty all-FX buffer succeeds: the
whole buffer is consumed as FSPEC and the returned record is `init` with the
default variation filled in (so it is valid, with empty error). -/
theorem decodeRecord_all_fx (buf : List Nat) (hne : buf ≠ [])
    (hfx : ∀ b ∈ buf, (b &&& 1) = 1) :
    decodeRecord emptyCat buf =
      .ok ({ DecodedRecord.init with uap_variation := "default" }, buf.length) := by
  obtain ⟨a, t, rfl⟩ : ∃ a t, buf = a :: t := by
    cases buf with
    | nil => exact absurd rfl hne
    | cons a t => exact ⟨a, t, rfl⟩
  have hfp : readFspecLoop (a :: t) (a :: t).length 0 [] = (a :: t, (a :: t).length) := by
    rw [readFspecLoop_all_fx (a :: t) hfx (a :: t).length 0 [] (by omega)]
    simp
  rw [decodeRecord, hfp]
  rfl

/-- C4 counterexample: the one-byte buffer `[0x01]` has FX = 1 in its only
byte, so the buffer ends while FX = 1 — yet `decodeRecord` returns a valid
record with empty error and consumes the byte; there is no Truncated
failure. -/
theorem c4_counterexample :
    decodeRecord emptyCat [1] =
      .ok ({ DecodedRecord.init with uap_variation := "default" }, 1) ∧
    ({ DecodedRecord.init with uap_variation := "default" } : DecodedRecord).valid = true ∧
    ({ DecodedRecord.init with uap_variation := "default" } : DecodedRecord).error = "" :=
  ⟨rfl, rfl, rfl⟩

/-- C4 (amended): when the record buffer ends while FX = 1, the FSPEC loop of
`Codec::decodeRecord` (Codec.cpp, lines 299-304) stops silently instead of
failing: over a category with an empty UAP and no mandatory items the whole
buffer is consumed as FSPEC and the decoded record is valid with empty
error — no Truncated error is raised. -/
theorem c4_fspec_eof_silent (buf : List Nat) (hne : buf ≠ [])
    (hfx : ∀ b ∈ buf, (b &&& 1) = 1) :
    decodeRecord emptyCat buf =
      .ok ({ DecodedRecord.init with uap_variation := "default" }, buf.length) ∧
    ({ DecodedRecord.init with uap_variation := "default" } : DecodedRecord).valid = true ∧
    ({ DecodedRecord.init with uap_variation := "default" } : DecodedRecord).error = "" :=
  ⟨decodeRecord_all_fx buf hne hfx, rfl, rfl⟩

/-- C4 witness: the buffer `[0x03]` (FX set) decodes to a valid record. -/
theorem c4_witness :
    decodeRecord emptyCat [3] =
      .ok ({ DecodedRecord.init with uap_variation := "default" }, 1) ∧
    ({ DecodedRecord.init with uap_variation := "default" } : DecodedRecord).valid = true ∧
    ({ DecodedRecord.init with uap_variation := "default" } : DecodedRecord).error = "" :=
  c4_fspec_eof_silent [3] (by decide) (by decide)

/-- One step of the record loop of `Codec::decode` (Codec.cpp,
lines 411-427), written out. -/
theorem decodeRecordsLoop_succ (cat : CategoryDef) (payload : List Nat) (fuel pos : Nat)
    (block : DecodedBlock) :
    decodeRecordsLoop cat payload (fuel + 1) pos block =
      if payload.length ≤ pos then block
      else match decodeRecord cat (payload.drop pos) with
        | .error msg =>
          { block with
            valid := false,
            error := "Record decode error: " ++ msg }
        | .ok (rec, consumed) =>
          if consumed = 0 then
            { block with
              records := block.records ++ [rec],
              valid := false,
              error := "Infinite loop guard: no bytes consumed decoding record" }
          else decodeRecordsLoop cat payload fuel (pos + consumed)
            { block with records := block.records ++ [rec] } := rfl

/-- The record loop stops when the payload is exhausted. -/
theorem decodeRecordsLoop_stop (cat : CategoryDef) (payload : List Nat) (fuel pos : Nat)
    (block : DecodedBlock) (hpos : payload.length ≤ pos) :
    decodeRecordsLoop cat payload (fuel + 1) pos block = block := by
  rw [decodeRecordsLoop_succ, if_pos hpos]

/-- A record-decode failure folds the message into the block (Codec.cpp,
lines 416-420). -/
theorem decodeRecordsLoop_err (cat : CategoryDef) (payload : List Nat) (fuel pos : Nat)
    (block : DecodedBlock) (msg : String) (hpos : ¬ payload.length ≤ pos)
    (hdr : decodeRecord cat (payload.drop pos) = .error msg) :
    decodeRecordsLoop cat payload (fuel + 1) pos block =
      { block with
        valid := false,
        error := "Record decode error: " ++ msg } := by
  rw [decodeRecordsLoop_succ, if_neg hpos, hdr]

/-- A successful record decode appends the record and either trips the
zero-consumption guard or continues (Codec.cpp, lines 414-426). -/
theorem decodeRecordsLoop_ok (cat : CategoryDef) (payload : List Nat) (fuel pos : Nat)
    (block : DecodedBlock) (rec : DecodedRecord) (consumed : Nat)
    (hpos : ¬ payload.length ≤ pos)
    (hdr : decodeRecord cat (payload.drop pos) = .ok (rec, consumed)) :
    decodeRecordsLoop cat payload (fuel + 1) pos block =
      if consumed = 0 then
        { block with
          records := block.records ++ [rec],
          valid := false,
          error := "Infinite loop guard: no bytes consumed decoding record" }
      else decodeRecordsLoop cat payload fuel (pos + consumed)
        { block with records := block.records ++ [rec] } := by
  rw [decodeRecordsLoop_succ, if_neg hpos, hdr]

/-- The record loop only appends to the record list it is given. -/
theorem decodeRecordsLoop_retains (cat : CategoryDef) (payload : List Nat) :
    ∀ fuel pos block, ∃ recs,
      (decodeRecordsLoop cat payload fuel pos block).records =
        block.records ++ recs := by
  intro fuel
  induction fuel with
  | zero =>
    intro pos block
    exact ⟨[], by simp [decodeRecordsLoop]⟩
  | succ f ih =>
    intro pos block
    by_cases hpos : payload.length ≤ pos
    · rw [decodeRecordsLoop_stop cat payload f pos block hpos]
      exact ⟨[], by simp⟩
    · cases hdr : decodeRecord cat (payload.drop pos) with
      | error msg =>
        rw [decodeRecordsLoop_err cat payload f pos block msg hpos hdr]
        exact ⟨[], by simp⟩
      | ok rc =>
        obtain ⟨rec, consumed⟩ := rc
        rw [decodeRecordsLoop_ok cat payload f pos block rec consumed hpos hdr]
        by_cases hc : consumed = 0
        · rw [if_pos hc]
          exact ⟨[rec], by simp⟩
        · rw [if_neg hc]
          obtain ⟨recs2, hr⟩ := ih (pos + consumed)
            { block with records := block.records ++ [rec] }
          refine ⟨rec :: recs2, ?_⟩
          rw [hr]
          simp

/-- The record loop preserves the invariant that an invalid block carries a
nonempty error string. -/
theorem decodeRecordsLoop_invalid (cat : CategoryDef) (payload : List Nat) :
    ∀ fuel pos block, (block.valid = false → block.error ≠ "") →
      (decodeRecordsLoop cat payload fuel pos block).valid = false →
      (decodeRecordsLoop cat payload fuel pos block).error ≠ "" := by
  intro fuel
  induction fuel with
  | zero =>
    intro pos block hinv
    exact hinv
  | succ f ih =>
    intro pos block hinv
    by_cases hpos : payload.length ≤ pos
    · rw [decodeRecordsLoop_stop cat payload f pos block hpos]
      exact hinv
    · cases hdr : decodeRecord cat (payload.drop pos) with
      | error msg =>
        rw [decodeRecordsLoop_err cat payload f pos block msg hpos hdr]
        intro _ h
        have h2 : "Record decode error: " ++ msg = "" := h
        have hlen := congrArg String.length h2
        rw [String.length_append,
          show ("Record decode error: " : String).length = 21 from rfl,
          show ("" : String).length = 0 from rfl] at hlen
        omega
      | ok rc =>
        obtain ⟨rec, consumed⟩ := rc
        rw [decodeRecordsLoop_ok cat payload f pos block rec consumed hpos hdr]
        by_cases hc : consumed = 0
        · rw [if_pos hc]
          intro _ h
          have h2 : ("Infinite loop guard: no bytes consumed decoding record" : String)
              = "" := h
          exact absurd (congrArg String.length h2) (by decide)
        · rw [if_neg hc]
          exact ih (pos + consumed) { block with records := block.records ++ [rec] } hinv

/-- C3: `Codec::decode` (Codec.cpp, lines 381-430) is a total function into
`DecodedBlock`: (1) whenever the returned block is invalid its error string
is nonempty, so header errors, unknown categories and record-decode failures
are all reported through the valid/error fields; (2) the record loop only
ever appends to the record list, so records decoded before a failure are
retained; (3) a too-short buffer yields the specific invalid header block;
and (4) a record-decode failure at the current position turns into an invalid
block carrying the failure message, with the records so far kept. -/
theorem c3_decode_total (c : CodecReg) (buf : List Nat) :
    ((decode c buf).valid = false → (decode c buf).error ≠ "") ∧
    (∀ cat payload fuel pos block, ∃ recs,
      (decodeRecordsLoop cat payload fuel pos block).records =
        block.records ++ recs) ∧
    (buf.length < 3 →
      decode c buf = { DecodedBlock.init with
        valid := false,
        error := "Buffer too short for Data Block header (need ≥3 bytes)" }) ∧
    (∀ cat payload fuel pos block msg, ¬ payload.length ≤ pos →
      decodeRecord cat (payload.drop pos) = .error msg →
      decodeRecordsLoop cat payload (fuel + 1) pos block =
        { block with
          valid := false,
          error := "Record decode error: " ++ msg }) := by
  refine ⟨?_, fun cat payload fuel pos block =>
      decodeRecordsLoop_retains cat payload fuel pos block, ?_, ?_⟩
  · rw [decode]
    by_cases h3 : buf.length < 3
    · rw [if_pos h3]
      intro _ h
      exact absurd (congrArg String.length h) (by decide)
    · rw [if_neg h3]
      simp only []
      generalize ((buf.getD 1 0 <<< 8) ||| buf.getD 2 0) % 65536 = L
      by_cases h2 : L < 3 ∨ buf.length < L
      · rw [if_pos h2]
        intro _ h
        have hL : "Data Block LEN field (" ++ toString L ++ ") is invalid" = "" := h
        have hlen := congrArg String.length hL
        rw [String.length_append, String.length_append,
          show ("Data Block LEN field (" : String).length = 22 from rfl,
          show (") is invalid" : String).length = 12 from rfl,
          show ("" : String).length = 0 from rfl] at hlen
        omega
      · rw [if_neg h2]
        cases hfind : nfind? (buf.getD 0 0) c with
        | none =>
          intro _ h
          have hC : "Category " ++ toString (buf.getD 0 0) ++ " not registered" = "" := h
          have hlen := congrArg String.length hC
          rw [String.length_append, String.length_append,
            show ("Category " : String).length = 9 from rfl,
            show (" not registered" : String).length = 15 from rfl,
            show ("" : String).length = 0 from rfl] at hlen
          omega
        | some cat =>
          exact decodeRecordsLoop_invalid _ _ _ _ _
            (fun hv => Bool.noConfusion (show true = false from hv))
  · intro h3
    rw [decode, if_pos h3]
  · intro cat payload fuel pos block msg hpos herr
    exact decodeRecordsLoop_err cat payload fuel pos block msg hpos herr

/-- C3 witness: an empty buffer gives the short-header invalid block with its
nonempty error, and a record-decode failure is folded into the block. -/
theorem c3_witness :
    (decode [] []).error ≠ "" ∧
    decode [] [] = { DecodedBlock.init with
      valid := false,
      error := "Buffer too short for Data Block header (need ≥3 bytes)" } ∧
    decodeRecordsLoop ⟨1, [], [], "default", none⟩ [0] 1 0 DecodedBlock.init =
      { DecodedBlock.init with
        valid := false,
        error := "Record decode error: " ++ "map::at: key not found" } :=
  ⟨(c3_decode_total [] []).1 (by decide),
   (c3_decode_total [] []).2.2.1 (by decide),
   (c3_decode_total [] []).2.2.2 ⟨1, [], [], "default", none⟩ [0] 0 0
     DecodedBlock.init "map::at: key not found" (by decide) (by decide)⟩

/-- One step of the forward `latest index satisfying P, plus one` fold. -/
theorem luFold_succ (P : Nat → Bool) (n : Nat) :
    luFold P (n + 1) = if P n then n + 1 else luFold P n := by
  unfold luFold
  rw [List.range_succ, List.foldl_append]
  rfl

theorem luFold_le (P : Nat → Bool) : ∀ n, luFold P n ≤ n := by
  intro n
  induction n with
  | zero => exact Nat.le_refl 0
  | succ m ih =>
    rw [luFold_succ]
    by_cases h : P m
    · rw [if_pos h]
    · rw [if_neg h]
      omega

/-- Past the fold's result every index fails `P`. -/
theorem luFold_max (P : Nat → Bool) : ∀ n j, luFold P n ≤ j → j < n → P j = false := by
  intro n
  induction n with
  | zero => intro j _ hj; omega
  | succ m ih =>
    intro j hle hj
    rw [luFold_succ] at hle
    by_cases h : P m
    · rw [if_pos h] at hle
      omega
    · rw [if_neg h] at hle
      by_cases hjm : j = m
      · rw [hjm]
        exact Bool.of_not_eq_true h
      · exact ih j hle (by omega)

/-- A nonzero fold result points at an index satisfying `P`. -/
theorem luFold_hit (P : Nat → Bool) : ∀ n, luFold P n ≠ 0 → P (luFold P n - 1) = true := by
  intro n
  induction n with
  | zero => intro h; exact absurd rfl h
  | succ m ih =>
    intro h
    rw [luFold_succ] at h ⊢
    by_cases hp : P m
    · rw [if_pos hp]
      simpa using hp
    · rw [if_neg hp] at h ⊢
      exact ih h

theorem natBits_lt_two (n v : Nat) : ∀ x ∈ natBits n v, x < 2 := by
  induction n generalizing v with
  | zero =>
    intro x hx
    simp [natBits] at hx
  | succ k ih =>
    intro x hx
    rw [show natBits (k + 1) v = v / 2 ^ k % 2 :: natBits k v from rfl] at hx
    rcases List.mem_cons.mp hx with h | h
    · subst h
      omega
    · exact ih v x h

theorem elemBits_nil (src : Smap Nat) : elemBits [] src = [] := rfl

theorem elemBits_cons (e : ElementDef) (t : List ElementDef) (src : Smap Nat) :
    elemBits (e :: t) src = natBits e.bits (elemVal src e) ++ elemBits t src := by
  simp [elemBits]

theorem sumBits_cons (e : ElementDef) (t : List ElementDef) :
    sumBits (e :: t) = e.bits + sumBits t := by
  simp [sumBits]

theorem elemBits_length (elems : List ElementDef) (src : Smap Nat) :
    (elemBits elems src).length = sumBits elems := by
  induction elems with
  | nil => rfl
  | cons e t ih => rw [elemBits_cons, sumBits_cons, List.length_append, natBits_length, ih]

theorem elemBits_lt_two (elems : List ElementDef) (src : Smap Nat) :
    ∀ x ∈ elemBits elems src, x < 2 := by
  induction elems with
  | nil =>
    intro x hx
    simp [elemBits_nil] at hx
  | cons e t ih =>
    intro x hx
    rw [elemBits_cons] at hx
    rcases List.mem_append.mp hx with h | h
    · exact natBits_lt_two e.bits (elemVal src e) x h
    · exact ih x h

/-- `byteBits` inverts `bitsVal` on 8-element bit lists. -/
theorem byteBits_bitsVal (b7 b6 b5 b4 b3 b2 b1 b0 : Nat)
    (h : ∀ x ∈ [b7, b6, b5, b4, b3, b2, b1, b0], x < 2) :
    byteBits (bitsVal [b7, b6, b5, b4, b3, b2, b1, b0]) =
      [b7, b6, b5, b4, b3, b2, b1, b0] := by
  simp only [List.mem_cons, List.not_mem_nil, or_false, forall_eq_or_imp, forall_eq] at h
  obtain ⟨h7, h6, h5, h4, h3, h2, h1, h0⟩ := h
  simp only [bitsVal, bitsValFrom, List.foldl, byteBits, List.cons.injEq, and_true]
  refine ⟨?_, ?_, ?_, ?_, ?_, ?_, ?_, ?_⟩ <;> omega

/-- The last bit of a byte assembled from 7 data bits and an FX bit is the
FX bit. -/
theorem bitsVal_append_parity (L : List Nat) (x : Nat) :
    bitsVal (L ++ [x]) % 2 = x % 2 := by
  unfold bitsVal
  rw [bitsValFrom_append]
  show (2 * bitsValFrom 0 L + x) % 2 = x % 2
  omega

theorem Wabs_length (w : BitWriter) (hWF : WFW w.buf w.pos) : (Wabs w).length = w.pos := by
  obtain ⟨_, hlen, _⟩ := hWF
  unfold Wabs
  rw [List.length_take, bufBits_length]
  omega

/-- Both branches of the element encoder write `elemVal` (Codec.cpp,
lines 439-447). -/
theorem encodeElemsW_cons (e : ElementDef) (t : List ElementDef) (src : Smap Nat)
    (w : BitWriter) :
    encodeElemsW (e :: t) src w =
      match w.writeU (elemVal src e) e.bits with
      | .error msg => .error msg
      | .ok w' => encodeElemsW t src w' := by
  simp only [encodeElemsW]
  cases hsp : e.is_spare with
  | false =>
    rw [if_neg Bool.false_ne_true,
      show elemVal src e = (Smap.find? e.name src).getD 0 by simp [elemVal, hsp]]
  | true =>
    rw [if_pos rfl, show elemVal src e = 0 by simp [elemVal, hsp]]

/-- The element encoder appends exactly the element bit stream: from any
well-formed writer it succeeds, advances by the total bit width and leaves
`Wabs ++ elemBits` as the written bits. -/
theorem encodeElemsW_spec (src : Smap Nat) :
    ∀ (elems : List ElementDef) (w : BitWriter), WFW w.buf w.pos →
      (∀ e ∈ elems, 1 ≤ e.bits ∧ e.bits ≤ 64) →
      ∃ w', encodeElemsW elems src w = .ok w' ∧ WFW w'.buf w'.pos ∧
        w'.pos = w.pos + sumBits elems ∧
        bufBits w'.buf = Wabs w ++ elemBits elems src ++
          List.replicate (8 * w'.buf.length - w'.pos) 0 := by
  intro elems
  induction elems with
  | nil =>
    intro w hWF _
    refine ⟨w, rfl, hWF, by simp [sumBits], ?_⟩
    rw [elemBits_nil, List.append_nil]
    obtain ⟨_, hlen, hdrop⟩ := hWF
    conv_lhs => rw [← List.take_append_drop w.pos (bufBits w.buf)]
    rw [hdrop]
    rfl
  | cons e t ih =>
    intro w hWF hb
    obtain ⟨he1, he64⟩ := hb e (by simp)
    obtain ⟨w1, hok, hWF1, hpos1, hbits1⟩ :=
      writeU_spec w (elemVal src e) e.bits hWF he1 he64
    obtain ⟨w2, hok2, hWF2, hpos2, hbits2⟩ := ih w1 hWF1 (fun x hx => hb x (by simp [hx]))
    have hW1 : Wabs w1 = Wabs w ++ natBits e.bits (elemVal src e) := by
      unfold Wabs
      rw [hpos1, hbits1]
      exact take_patched _ _ _ w.pos e.bits (Wabs_length w hWF) (natBits_length _ _)
    refine ⟨w2, ?_, hWF2, ?_, ?_⟩
    · rw [encodeElemsW_cons, hok]
      show encodeElemsW t src w1 = Except.ok w2
      exact hok2
    · rw [hpos2, hpos1, sumBits_cons]
      omega
    · rw [hbits2, hW1, elemBits_cons]
      simp [List.append_assoc]

/-- One Extended octet appends its 7 element bits and the FX bit
(Codec.cpp, lines 477-488). -/
theorem encodeOctet_spec (oct : OctetDef) (fields : Smap Nat) (is_last : Bool)
    (w : BitWriter) (hWF : WFW w.buf w.pos) (hwf : octetWF oct) :
    ∃ w', encodeOctet oct fields is_last w = .ok w' ∧ WFW w'.buf w'.pos ∧
      w'.pos = w.pos + 8 ∧
      bufBits w'.buf = Wabs w ++ (elemBits oct.elements fields ++
        [if is_last then 0 else 1]) ++
        List.replicate (8 * w'.buf.length - w'.pos) 0 := by
  obtain ⟨hge, hsum⟩ := hwf
  have hs2 : (oct.elements.map ElementDef.bits).sum = 7 := hsum
  have hb : ∀ e ∈ oct.elements, 1 ≤ e.bits ∧ e.bits ≤ 64 := by
    intro e he
    refine ⟨hge e he, ?_⟩
    have hle : e.bits ≤ (oct.elements.map ElementDef.bits).sum :=
      List.single_le_sum (fun x _ => Nat.zero_le x) e.bits
        (List.mem_map_of_mem ElementDef.bits he)
    omega
  obtain ⟨w1, hok1, hWF1, hpos1, hbits1⟩ := encodeElemsW_spec fields oct.elements w hWF hb
  obtain ⟨w2, hok2, hWF2, hpos2, hbits2⟩ :=
    writeU_spec w1 (if (!is_last) then 1 else 0) 1 hWF1 (by omega) (by omega)
  have hW1 : (bufBits w1.buf).take w1.pos = Wabs w ++ elemBits oct.elements fields := by
    rw [hpos1, hbits1]
    exact take_patched _ _ _ w.pos (sumBits oct.elements)
      (Wabs_length w hWF) (elemBits_length _ _)
  have hfx : natBits 1 (if (!is_last) then 1 else 0) = [if is_last then 0 else 1] := by
    cases is_last <;> rfl
  refine ⟨w2, ?_, hWF2, ?_, ?_⟩
  · rw [encodeOctet, hok1]
    show BitWriter.writeBit w1 (!is_last) = Except.ok w2
    rw [BitWriter.writeBit]
    exact hok2
  · have hsb : sumBits oct.elements = 7 := hsum
    omega
  · rw [hbits2, hW1, hfx, hpos2]
    simp [List.append_assoc]

/-- `byteBits` inverts `bitsVal` on any 8-element bit list. -/
theorem byteBits_bitsVal_list (L : List Nat) (hL : L.length = 8)
    (hlt : ∀ x ∈ L, x < 2) : byteBits (bitsVal L) = L := by
  obtain ⟨b7, L1, rfl⟩ := List.exists_of_length_succ L hL
  simp only [List.length_cons] at hL
  obtain ⟨b6, L2, rfl⟩ := List.exists_of_length_succ L1 (show L1.length = 6 + 1 by omega)
  simp only [List.length_cons] at hL
  obtain ⟨b5, L3, rfl⟩ := List.exists_of_length_succ L2 (show L2.length = 5 + 1 by omega)
  simp only [List.length_cons] at hL
  obtain ⟨b4, L4, rfl⟩ := List.exists_of_length_succ L3 (show L3.length = 4 + 1 by omega)
  simp only [List.length_cons] at hL
  obtain ⟨b3, L5, rfl⟩ := List.exists_of_length_succ L4 (show L4.length = 3 + 1 by omega)
  simp only [List.length_cons] at hL
  obtain ⟨b2, L6, rfl⟩ := List.exists_of_length_succ L5 (show L5.length = 2 + 1 by omega)
  simp only [List.length_cons] at hL
  obtain ⟨b1, L7, rfl⟩ := List.exists_of_length_succ L6 (show L6.length = 1 + 1 by omega)
  simp only [List.length_cons] at hL
  obtain ⟨b0, L8, rfl⟩ := List.exists_of_length_succ L7 (show L7.length = 0 + 1 by omega)
  simp only [List.length_cons] at hL
  have h8 : L8 = [] := List.eq_nil_of_length_eq_zero (by omega)
  subst h8
  exact byteBits_bitsVal b7 b6 b5 b4 b3 b2 b1 b0 hlt

/-- A well-formed 8-bit write from a byte-aligned writer appends exactly one
byte, namely the value of the 8 written bits, and lands byte-aligned again. -/
theorem aligned_append_byte (w w' : BitWriter) (L : List Nat)
    (hWF : WFW w.buf w.pos) (halign : w.pos = 8 * w.buf.length)
    (hWF' : WFW w'.buf w'.pos) (hpos : w'.pos = w.pos + 8)
    (hL : L.length = 8) (hlt : ∀ x ∈ L, x < 2)
    (hbits : bufBits w'.buf = Wabs w ++ L ++
      List.replicate (8 * w'.buf.length - w'.pos) 0) :
    w'.buf = w.buf ++ [bitsVal L] ∧ w'.pos = 8 * w'.buf.length := by
  obtain ⟨hb, hlen, _⟩ := hWF
  obtain ⟨hb', hlen', _⟩ := hWF'
  have hlen2 : w'.buf.length = w.buf.length + 1 := by omega
  have hrep : 8 * w'.buf.length - w'.pos = 0 := by omega
  have hWabs : Wabs w = bufBits w.buf := by
    unfold Wabs
    rw [halign, ← bufBits_length, List.take_length]
  rw [hWabs, hrep, List.replicate_zero, List.append_nil] at hbits
  have hbyte : byteBits (bitsVal L) = L := byteBits_bitsVal_list L hL hlt
  have heq : bufBits w'.buf = bufBits (w.buf ++ [bitsVal L]) := by
    rw [bufBits_concat, hbyte, hbits]
  have hlt' : ∀ b ∈ w.buf ++ [bitsVal L], b < 256 := by
    intro b hbm
    rcases List.mem_append.mp hbm with h | h
    · exact hb b h
    · rw [List.mem_singleton] at h
      subst h
      have hv := bitsVal_lt L hlt
      rw [hL] at hv
      exact lt_of_lt_of_eq hv (by norm_num)
  have hfull : w'.buf = w.buf ++ [bitsVal L] := by
    have h8 : (bufBits w'.buf).take (8 * w'.buf.length) =
        (bufBits (w.buf ++ [bitsVal L])).take (8 * w'.buf.length) := by
      rw [heq]
    have h2 := bufBits_inj_prefix w'.buf.length w'.buf (w.buf ++ [bitsVal L])
      hb' hlt' h8 (Nat.le_refl _) (by simp [hlen2])
    rwa [List.take_of_length_le (Nat.le_refl _),
      List.take_of_length_le (by simp [hlen2])] at h2
  exact ⟨hfull, by omega⟩

/-- The Extended octet loop (Codec.cpp, lines 477-488) from a byte-aligned
writer appends one byte per index; each byte is byte-valued and its low (FX)
bit is 0 exactly on an index `i` with `i + 1 = last_useful`. -/
theorem encodeExtendedOctets_bytes (d : DataItemDef) (fields : Smap Nat) (lu : Nat)
    (hwf : ∀ oct ∈ d.octets, octetWF oct) :
    ∀ (idxs : List Nat) (w : BitWriter),
      (∀ i ∈ idxs, i < d.octets.length) →
      WFW w.buf w.pos → w.pos = 8 * w.buf.length →
      ∃ bs, encodeExtendedOctets d fields lu idxs w =
          .ok ⟨w.buf ++ bs, w.pos + 8 * bs.length⟩ ∧
        bs.length = idxs.length ∧ (∀ b ∈ bs, b < 256) ∧
        WFW (w.buf ++ bs) (w.pos + 8 * bs.length) ∧
        w.pos + 8 * bs.length = 8 * (w.buf ++ bs).length ∧
        (∀ j, j < idxs.length →
          bs.getD j 0 % 2 = if (idxs.getD j 0 + 1) == lu then 0 else 1) := by
  intro idxs
  induction idxs with
  | nil =>
    intro w _ hWF hal
    refine ⟨[], ?_, rfl, by simp, by simpa using hWF, by simpa using hal, ?_⟩
    · show Except.ok w = _
      simp
    · intro j hj
      simp at hj
  | cons i rest ih =>
    intro w hidx hWF hal
    have hi : i < d.octets.length := hidx i (by simp)
    have hoct : octetWF (d.octets.getD i ⟨[]⟩) := by
      apply hwf
      rw [List.getD_eq_getElem _ _ hi]
      exact List.getElem_mem hi
    obtain ⟨w1, hok1, hWF1, hpos1, hbits1⟩ :=
      encodeOctet_spec (d.octets.getD i ⟨[]⟩) fields (i + 1 == lu) w hWF hoct
    have hLlen : (elemBits (d.octets.getD i ⟨[]⟩).elements fields ++
        [if (i + 1 == lu) then 0 else 1]).length = 8 := by
      rw [List.length_append, elemBits_length, hoct.2]
      rfl
    have hLlt : ∀ x ∈ elemBits (d.octets.getD i ⟨[]⟩).elements fields ++
        [if (i + 1 == lu) then 0 else 1], x < 2 := by
      intro x hx
      rcases List.mem_append.mp hx with h | h
      · exact elemBits_lt_two _ _ x h
      · rw [List.mem_singleton] at h
        subst h
        cases (i + 1 == lu) <;> simp
    obtain ⟨hbuf1, hal1⟩ := aligned_append_byte w w1 _ hWF hal hWF1 hpos1 hLlen hLlt hbits1
    obtain ⟨bs, hok2, hlen2, hb256, hWF2, hal2, hfx⟩ :=
      ih w1 (fun x hx => hidx x (by simp [hx])) hWF1 hal1
    refine ⟨bitsVal (elemBits (d.octets.getD i ⟨[]⟩).elements fields ++
      [if (i + 1 == lu) then 0 else 1]) :: bs, ?_, by simp [hlen2], ?_, ?_, ?_, ?_⟩
    · show (match encodeOctet (d.octets.getD i ⟨[]⟩) fields (i + 1 == lu) w with
        | Except.error msg => Except.error msg
        | Except.ok w2 => encodeExtendedOctets d fields lu rest w2) = _
      rw [hok1]
      show encodeExtendedOctets d fields lu rest w1 = _
      rw [hok2, hbuf1, hpos1]
      rw [show (w.buf ++ [bitsVal (elemBits (d.octets.getD i ⟨[]⟩).elements fields ++
          [if (i + 1 == lu) then 0 else 1])]) ++ bs =
        w.buf ++ bitsVal (elemBits (d.octets.getD i ⟨[]⟩).elements fields ++
          [if (i + 1 == lu) then 0 else 1]) :: bs by simp]
      rw [show w.pos + 8 + 8 * bs.length = w.pos + 8 * (bitsVal (elemBits
          (d.octets.getD i ⟨[]⟩).elements fields ++
          [if (i + 1 == lu) then 0 else 1]) :: bs).length by
        simp only [List.length_cons]
        omega]
    · intro b hbm
      rcases List.mem_cons.mp hbm with h | h
      · subst h
        have hv := bitsVal_lt _ hLlt
        rw [hLlen] at hv
        exact lt_of_lt_of_eq hv (by norm_num)
      · exact hb256 b h
    · rw [hbuf1] at hWF2
      rw [hpos1] at hWF2
      rw [show w.buf ++ bitsVal (elemBits (d.octets.getD i ⟨[]⟩).elements fields ++
          [if (i + 1 == lu) then 0 else 1]) :: bs =
        (w.buf ++ [bitsVal (elemBits (d.octets.getD i ⟨[]⟩).elements fields ++
          [if (i + 1 == lu) then 0 else 1])]) ++ bs by simp]
      rw [show w.pos + 8 * (bitsVal (elemBits (d.octets.getD i ⟨[]⟩).elements fields ++
          [if (i + 1 == lu) then 0 else 1]) :: bs).length = w.pos + 8 + 8 * bs.length by
        simp only [List.length_cons]
        omega]
      exact hWF2
    · rw [hbuf1, hpos1] at hal2
      simp only [List.length_cons, List.length_append] at hal2 ⊢
      omega
    · intro j hj
      cases j with
      | zero =>
        show bitsVal (elemBits (d.octets.getD i ⟨[]⟩).elements fields ++
          [if (i + 1 == lu) then 0 else 1]) % 2 = if ((i + 1) == lu) then 0 else 1
        rw [bitsVal_append_parity]
        cases (i + 1 == lu) <;> simp
      | succ m =>
        have hm := hfx m (by simpa using hj)
        simpa using hm

end AsterixV